import Mathlib

set_option maxRecDepth 40000

/-!
Verification of the tool-call loop detector of openclaw-mini
(src/tools/web-fetch.ts): stable structural hashing of tool arguments
(stableStringify / toolKey / outcomeKey), the bounded call history, the four
detection patterns (no-progress streak, circuit breaker, ping-pong, generic
repeat), warning deduplication, and the tool-wrapping contract.

The TypeScript source is embedded shallowly: JavaScript structured values
become the inductive type JsonValue (numbers are modelled as integers, the
JSON-representable case), strings stay strings, the mutable detector state
becomes an explicit DetectorState record threaded through the operations.
-/

-- ─── Key ordering (Array.prototype.sort on strings, i.e. lexicographic) ──────

/-- Lexicographic comparison of char lists by code point, as a Bool.
Models the default JavaScript string ordering used by Object.keys(obj).sort(). -/
def charListLe : List Char → List Char → Bool
  | [], _ => true
  | _ :: _, [] => false
  | a :: as, b :: bs =>
    if a.toNat < b.toNat then true
    else if b.toNat < a.toNat then false
    else charListLe as bs

def strLe (a b : String) : Bool := charListLe a.data b.data

/-- Ordering of key/value pairs by key, used to sort object fields. -/
def keyLe {α : Type} (p q : String × α) : Prop := strLe p.1 q.1 = true

instance {α : Type} : DecidableRel (@keyLe α) :=
  fun _ _ => inferInstanceAs (Decidable (_ = true))

/-- Sort an association list by its string keys (stable insertion sort). -/
def sortByKey {α : Type} (l : List (String × α)) : List (String × α) :=
  List.insertionSort keyLe l

instance {α : Type} : IsTotal (String × α) keyLe := by
  constructor
  intro p q
  show strLe p.1 q.1 = true ∨ strLe q.1 p.1 = true
  unfold strLe
  generalize p.1.data = a
  generalize q.1.data = b
  induction a generalizing b with
  | nil => left; rfl
  | cons x xs ih =>
    cases b with
    | nil => right; rfl
    | cons y ys =>
      by_cases h1 : x.toNat < y.toNat
      · left; simp [charListLe, h1]
      · by_cases h2 : y.toNat < x.toNat
        · right; simp [charListLe, h2]
        · have := ih ys
          simpa [charListLe, h1, h2] using this

instance {α : Type} : IsTrans (String × α) keyLe := by
  constructor
  intro p q w hpq hqw
  show strLe p.1 w.1 = true
  have hpq' : strLe p.1 q.1 = true := hpq
  have hqw' : strLe q.1 w.1 = true := hqw
  unfold strLe at *
  generalize hga : p.1.data = a at hpq'
  generalize hgb : q.1.data = b at hpq' hqw'
  generalize hgc : w.1.data = c at hqw'
  clear hga hgb hgc hpq hqw
  induction a generalizing b c with
  | nil => rfl
  | cons x xs ih =>
    cases b with
    | nil => simp [charListLe] at hpq'
    | cons y ys =>
      cases c with
      | nil => simp [charListLe] at hqw'
      | cons z zs =>
        simp only [charListLe] at hpq' hqw' ⊢
        split at hpq'
        · rename_i hxy
          split at hqw'
          · rename_i hyz
            rw [if_pos (by omega)]
          · split at hqw'
            · simp at hqw'
            · rename_i hyz hzy
              rw [if_pos (by omega)]
        · split at hpq'
          · simp at hpq'
          · rename_i hxy hyx
            split at hqw'
            · rename_i hyz
              rw [if_pos (by omega)]
            · split at hqw'
              · simp at hqw'
              · rename_i hyz hzy
                rw [if_neg (by omega), if_neg (by omega)]
                exact ih ys hpq' zs hqw'

-- ─── Decimal rendering of integers (JSON.stringify on numbers) ───────────────

/-- Build the decimal digits of n in front of acc; fuel-driven so that the
definition is structurally recursive and kernel-reducible. -/
def natCharsAux : Nat → Nat → List Char → List Char
  | 0, _, acc => acc
  | fuel + 1, n, acc =>
    let d := Char.ofNat (48 + n % 10)
    if n < 10 then d :: acc
    else natCharsAux fuel (n / 10) (d :: acc)

/-- Decimal digit string of a natural number. -/
def natChars (n : Nat) : List Char := natCharsAux (n + 1) n []

/-- Decimal rendering of an integer, as produced by JSON.stringify. -/
def intChars : Int → List Char
  | .ofNat n => natChars n
  | .negSucc m => '-' :: natChars (m + 1)

-- ─── String quoting (JSON.stringify on strings) ──────────────────────────────

/-- Lowercase hex digit for n < 16. -/
def hexDigitChar (n : Nat) : Char :=
  if n < 10 then Char.ofNat (48 + n) else Char.ofNat (87 + n)

/-- Escape of one character inside a JSON string literal, following
JSON.stringify: quote, backslash, the five short escapes, and the u00XX hex
escape for remaining control characters; everything else is literal. -/
def escChar (c : Char) : List Char :=
  if c = '"' then ['\\', '"']
  else if c = '\\' then ['\\', '\\']
  else if c = Char.ofNat 8 then ['\\', 'b']
  else if c = Char.ofNat 12 then ['\\', 'f']
  else if c = '\n' then ['\\', 'n']
  else if c = '\r' then ['\\', 'r']
  else if c = '\t' then ['\\', 't']
  else if c.toNat < 32 then
    ['\\', 'u', '0', '0', hexDigitChar (c.toNat / 16), hexDigitChar (c.toNat % 16)]
  else [c]

def escList : List Char → List Char
  | [] => []
  | c :: cs => escChar c ++ escList cs

-- ─── Structured values and stableStringify ───────────────────────────────────

/-- JSON-representable JavaScript values: the argument/result space of tool
calls. Numbers are modelled as integers. -/
inductive JsonValue where
  | null
  | bool (b : Bool)
  | num (n : Int)
  | str (s : String)
  | arr (elems : List JsonValue)
  | obj (fields : List (String × JsonValue))

/-- Render one already-serialized object field: quoted key, colon, value. -/
def renderField (k : String) (sv : List Char) : List Char :=
  '"' :: escList k.data ++ '"' :: ':' :: sv

/-- Comma-join of rendered object fields. -/
def joinFields : List (String × List Char) → List Char
  | [] => []
  | [(k, sv)] => renderField k sv
  | (k, sv) :: rest => renderField k sv ++ ',' :: joinFields rest

mutual

/-- Character-level canonical serialization of a value: the body of
stableStringify from web-fetch.ts. Scalars are rendered as by JSON.stringify,
array elements keep their order, object fields are sorted by key.
(The source sorts the keys and then serializes each field; here each field is
serialized first and the rendered fields are sorted by key, which produces the
same string since a field's serialization does not depend on its position.) -/
def serL : JsonValue → List Char
  | .null => "null".data
  | .bool b => if b then "true".data else "false".data
  | .num n => intChars n
  | .str s => '"' :: escList s.data ++ ['"']
  | .arr xs => '[' :: serListL xs ++ [']']
  | .obj fs => '{' :: joinFields (sortByKey (serFieldsL fs)) ++ ['}']

/-- Comma-separated serializations of array elements (value.map(stableStringify).join(",")). -/
def serListL : List JsonValue → List Char
  | [] => []
  | [v] => serL v
  | v :: rest => serL v ++ ',' :: serListL rest

/-- Serialize each object field's value, keeping the key. -/
def serFieldsL : List (String × JsonValue) → List (String × List Char)
  | [] => []
  | (k, v) :: rest => (k, serL v) :: serFieldsL rest

end

/-- stableStringify from web-fetch.ts: canonical JSON serialization with
sorted object keys. -/
def stableStringify (v : JsonValue) : String := String.mk (serL v)

/-- toolKey from web-fetch.ts: the CallKey of a (toolName, params) pair. -/
def toolKey (name : String) (params : JsonValue) : String :=
  name ++ ":" ++ stableStringify params

/-- Extract the text fields of content blocks: the elements that are objects
carrying a string-valued "text" property, in order. -/
def contentTexts : List JsonValue → List String
  | [] => []
  | .obj fs :: rest =>
    match fs.lookup "text" with
    | some (.str t) => t :: contentTexts rest
    | _ => contentTexts rest
  | _ :: rest => contentTexts rest

/-- outcomeKey from web-fetch.ts: the OutcomeKey of a call's result or error.
An error (its message text) takes precedence; a missing result has no key;
a result exposing a content array of text blocks is keyed by the joined,
trimmed text; any other result by its canonical serialization. -/
def outcomeKey (result : Option JsonValue) (error : Option String) : Option String :=
  match error with
  | some e => some ("error:" ++ e)
  | none =>
    match result with
    | none => none
    | some r =>
      match r with
      | .obj fs =>
        match fs.lookup "content" with
        | some (.arr blocks) =>
          some ("text:" ++ (String.intercalate "\n" (contentTexts blocks)).trim)
        | _ => some (stableStringify r)
      | _ => some (stableStringify r)

-- ─── Structural equality (canonical form) ────────────────────────────────────

mutual

/-- Canonical form of a value under structural equality: object fields are
recursively sorted by key, array order is preserved. Two values are
structurally equal (same key/value mapping regardless of construction order,
same sequence order) exactly when their canonical forms coincide. -/
def canon : JsonValue → JsonValue
  | .null => .null
  | .bool b => .bool b
  | .num n => .num n
  | .str s => .str s
  | .arr xs => .arr (canonList xs)
  | .obj fs => .obj (sortByKey (canonFields fs))

def canonList : List JsonValue → List JsonValue
  | [] => []
  | v :: rest => canon v :: canonList rest

def canonFields : List (String × JsonValue) → List (String × JsonValue)
  | [] => []
  | (k, v) :: rest => (k, canon v) :: canonFields rest

end

-- ─── Detector state ──────────────────────────────────────────────────────────

/-- ToolCallRecord from web-fetch.ts: one history entry. -/
structure ToolCallRecord where
  key : String
  toolName : String
  resultKey : Option String
deriving DecidableEq, Repr

/-- Severity of a stuck verdict. -/
inductive Level where
  | warning
  | critical
deriving DecidableEq, Repr

/-- DetectionResult from web-fetch.ts. -/
inductive DetectionResult where
  | notStuck
  | stuck (level : Level) (message : String)
deriving DecidableEq, Repr

def HISTORY_SIZE : Nat := 30
def WARNING_THRESHOLD : Nat := 10
def CRITICAL_THRESHOLD : Nat := 20
def CIRCUIT_BREAKER_THRESHOLD : Nat := 30
def WARNING_BUCKET_SIZE : Nat := 10

/-- The mutable state of a ToolLoopDetector instance: the bounded call
history and the warning-dedup bucket table (a string-keyed map, modelled as
an association list). -/
structure DetectorState where
  history : List ToolCallRecord
  warningBuckets : List (String × Int)
deriving DecidableEq, Repr

def emptyState : DetectorState := { history := [], warningBuckets := [] }

/-- JavaScript truthiness test on an optional string: undefined and the empty
string are falsy. -/
def isFalsy : Option String → Bool
  | none => true
  | some s => s.isEmpty

/-- Map.set on the bucket table: replace the binding if present, else add it. -/
def bucketSet (k : String) (v : Int) : List (String × Int) → List (String × Int)
  | [] => [(k, v)]
  | (k', v') :: rest => if k' = k then (k, v) :: rest else (k', v') :: bucketSet k v rest

namespace ToolLoopDetector

/-- record from web-fetch.ts: append a history entry for the call, evicting
the oldest entry when capacity (30) is exceeded. -/
def record (st : DetectorState) (name : String) (params : JsonValue)
    (result : Option JsonValue) (error : Option String) : DetectorState :=
  let h := st.history ++
    [{ key := toolKey name params, toolName := name, resultKey := outcomeKey result error }]
  { st with history := if HISTORY_SIZE < h.length then h.tail else h }

/-- Number of history entries whose CallKey equals the given key (the
generic-repeat count, h.key === key). -/
def repeatCount (st : DetectorState) (key : String) : Nat :=
  (st.history.filter (fun h => h.key == key)).length

/-- The backward scan of getNoProgressStreak, expressed as recursion over the
reversed history: entries with a different key or without a truthy resultKey
are skipped; the first truthy matching entry fixes the expected result and
starts the streak at 1; a differing result breaks the scan. -/
def streakGo (key : String) : List ToolCallRecord → Nat → Option String → Nat
  | [], streak, _ => streak
  | h :: rest, streak, expected =>
    if h.key ≠ key then streakGo key rest streak expected
    else if isFalsy h.resultKey then streakGo key rest streak expected
    else if isFalsy expected then streakGo key rest 1 h.resultKey
    else if h.resultKey ≠ expected then streak
    else streakGo key rest (streak + 1) expected

/-- getNoProgressStreak from web-fetch.ts: length of the run of identical
outcomes for this key, scanning from the most recent entry backward. -/
def getNoProgressStreak (st : DetectorState) (key : String) : Nat :=
  streakGo key st.history.reverse 0 none

/-- The backward alternation scan of getPingPongCount: count entries strictly
alternating between otherKey (even positions from the tail) and currentKey
(odd positions), tracking the outcome seen on each side; a second distinct
truthy outcome on either side clears the no-progress flag. -/
def ppGo (currentKey otherKey : String) :
    List ToolCallRecord → Nat → Option String → Option String → Bool → Nat × Bool
  | [], count, _, _, np => (count, np)
  | h :: rest, count, rA, rB, np =>
    let expected := if count % 2 = 0 then otherKey else currentKey
    if h.key ≠ expected then (count, np)
    else
      let acc :=
        if isFalsy h.resultKey then (rA, rB, np)
        else if h.key = currentKey then
          if isFalsy rA then (h.resultKey, rB, np)
          else if h.resultKey ≠ rA then (rA, rB, false)
          else (rA, rB, np)
        else
          if isFalsy rB then (rA, h.resultKey, np)
          else if h.resultKey ≠ rB then (rA, rB, false)
          else (rA, rB, np)
      ppGo currentKey otherKey rest (count + 1) acc.1 acc.2.1 acc.2.2

/-- getPingPongCount from web-fetch.ts: 0 unless the last entry's key differs
from the current key and at least two entries alternate with stable outcomes
on both sides; otherwise the number of alternating entries plus one for the
current not-yet-recorded call. -/
def getPingPongCount (st : DetectorState) (currentKey : String) : Nat :=
  if st.history.length < 2 then 0
  else
    match st.history.getLast? with
    | none => 0
    | some last =>
      if last.key = currentKey then 0
      else
        let r := ppGo currentKey last.key st.history.reverse 0 none none true
        if r.1 < 2 ∨ r.2 = false then 0 else r.1 + 1

/-- detect from web-fetch.ts: the four detectors in severity order. -/
def detect (st : DetectorState) (name : String) (params : JsonValue) : DetectionResult :=
  let key := toolKey name params
  let streak := getNoProgressStreak st key
  if CIRCUIT_BREAKER_THRESHOLD ≤ streak then
    .stuck .critical ("BLOCKED: " ++ name ++ " repeated " ++ toString streak ++
      " times with no progress. Circuit breaker triggered — stop retrying and report the issue.")
  else if CRITICAL_THRESHOLD ≤ streak then
    .stuck .critical ("BLOCKED: " ++ name ++ " called " ++ toString streak ++
      " times with identical arguments and results. Stop retrying and try a different approach or report the task as failed.")
  else
    let ppCount := getPingPongCount st key
    if CRITICAL_THRESHOLD ≤ ppCount then
      .stuck .critical ("BLOCKED: Alternating tool pattern detected (" ++ toString ppCount ++
        " calls with no progress). Ping-pong loop — stop and try a different approach.")
    else if WARNING_THRESHOLD ≤ ppCount then
      .stuck .warning ("WARNING: Alternating tool pattern (" ++ toString ppCount ++
        " calls). Possible ping-pong loop — if not progressing, stop retrying.")
    else
      let rc := repeatCount st key
      if WARNING_THRESHOLD ≤ rc then
        .stuck .warning ("WARNING: " ++ name ++ " called " ++ toString rc ++
          " times with identical arguments. If not progressing, stop retrying.")
      else
        .notStuck

/-- shouldWarn from web-fetch.ts: warn once per bucket of 10 matching calls.
Returns the flag and the (possibly updated) state. -/
def shouldWarn (st : DetectorState) (name : String) (params : JsonValue) :
    Bool × DetectorState :=
  let key := toolKey name params
  let count := repeatCount st key
  let bucket : Int := (count : Int) / (WARNING_BUCKET_SIZE : Int)
  let lastBucket : Int := (st.warningBuckets.lookup key).getD (-1)
  if bucket ≤ lastBucket then (false, st)
  else (true, { st with warningBuckets := bucketSet key bucket st.warningBuckets })

/-- reset from web-fetch.ts: clear history and warning buckets. -/
def reset (_st : DetectorState) : DetectorState := emptyState

end ToolLoopDetector

-- ─── Wrapping contract and API-level step relation ───────────────────────────

/-- Observable result of one wrapped execute call: the outcome surfaced to the
caller, whether the underlying tool actually ran, and whether a warning was
surfaced. -/
structure WrapOutcome where
  outcome : Except String JsonValue
  executed : Bool
  warned : Bool

/-- The execute wrapper installed by wrapTool, as a state transformer. The
argument run is the underlying tool's behaviour for this invocation (a result
or a thrown error message). On a critical verdict the call is recorded with no
outcome and the verdict message is raised instead of executing; on a warning
verdict shouldWarn decides whether to surface it; otherwise the tool runs and
its real outcome (or thrown error) is recorded and propagated. -/
def wrappedExecute (st : DetectorState) (name : String) (params : JsonValue)
    (run : Except String JsonValue) : WrapOutcome × DetectorState :=
  match ToolLoopDetector.detect st name params with
  | .stuck .critical msg =>
    (⟨.error msg, false, false⟩, ToolLoopDetector.record st name params none none)
  | .stuck .warning _ =>
    let w := ToolLoopDetector.shouldWarn st name params
    match run with
    | .ok r => (⟨.ok r, true, w.1⟩, ToolLoopDetector.record w.2 name params (some r) none)
    | .error e => (⟨.error e, true, w.1⟩, ToolLoopDetector.record w.2 name params none (some e))
  | .notStuck =>
    match run with
    | .ok r => (⟨.ok r, true, false⟩, ToolLoopDetector.record st name params (some r) none)
    | .error e => (⟨.error e, true, false⟩, ToolLoopDetector.record st name params none (some e))

/-- The detector's public API calls. -/
inductive ApiCall where
  | check (name : String) (params : JsonValue)
  | record (name : String) (params : JsonValue) (result : Option JsonValue) (error : Option String)
  | shouldWarn (name : String) (params : JsonValue)
  | reset

/-- Output of one API call. -/
inductive ApiOut where
  | verdict (r : DetectionResult)
  | unit
  | flag (b : Bool)
deriving DecidableEq, Repr

/-- One API call as a transition on the detector state. -/
def apiStep (st : DetectorState) : ApiCall → ApiOut × DetectorState
  | .check n p => (.verdict (ToolLoopDetector.detect st n p), st)
  | .record n p r e => (.unit, ToolLoopDetector.record st n p r e)
  | .shouldWarn n p =>
    let w := ToolLoopDetector.shouldWarn st n p
    (.flag w.1, w.2)
  | .reset => (.unit, ToolLoopDetector.reset st)

-- ─── Concrete scenario states ────────────────────────────────────────────────

/-- Arguments of the end-to-end scenario call. -/
def readArgs : JsonValue := .obj [("path", .str "a.txt")]

/-- State after n record calls of ("read", readArgs) failing with ENOENT. -/
def readState : Nat → DetectorState
  | 0 => emptyState
  | n + 1 => ToolLoopDetector.record (readState n) "read" readArgs none (some "ENOENT")

/-- State after n record calls of ("search", "q") with pairwise distinct
result values (outcome varies on every call). -/
def varState : Nat → DetectorState
  | 0 => emptyState
  | n + 1 => ToolLoopDetector.record (varState n) "search" (.str "q") (some (.str (toString n))) none

/-- One recorded call of tool "a" on null arguments with stable outcome. -/
def entryA : ToolCallRecord := { key := toolKey "a" .null, toolName := "a", resultKey := some "\"ra\"" }

/-- One recorded call of tool "b" on null arguments with stable outcome. -/
def entryB : ToolCallRecord := { key := toolKey "b" .null, toolName := "b", resultKey := some "\"rb\"" }

/-- Strictly alternating history ending in entryB: n entries scanning
b, a, b, a, ... from the tail. -/
def altHistory : Nat → List ToolCallRecord
  | 0 => []
  | n + 1 => altHistory n ++ [if n % 2 = 0 then entryB else entryA]

/-- The history entry produced by one record of ("read", readArgs) failing
with ENOENT. -/
def readEntry : ToolCallRecord :=
  { key := toolKey "read" readArgs, toolName := "read", resultKey := some "error:ENOENT" }

/-- An unrelated successful call interleaved between read attempts. -/
def writeEntry : ToolCallRecord :=
  { key := toolKey "write" .null, toolName := "write", resultKey := some "\"done\"" }

/-- Twenty identical failing read calls interleaved with four calls of a
different tool. -/
def mixedHistory : List ToolCallRecord :=
  List.replicate 5 readEntry ++ [writeEntry] ++ List.replicate 5 readEntry ++ [writeEntry] ++
  List.replicate 5 readEntry ++ [writeEntry] ++ List.replicate 5 readEntry ++ [writeEntry]

/-- Alternating a and b calls where one a-side outcome differs mid-sequence. -/
def altHistoryChanged : List ToolCallRecord :=
  (altHistory 19).set 9 { key := toolKey "a" .null, toolName := "a", resultKey := some "\"changed\"" }

/-- Arguments of one record call, as passed by the host. -/
structure RecInput where
  name : String
  params : JsonValue
  result : Option JsonValue
  error : Option String

/-- The history entry a record call appends. -/
def recEntry (i : RecInput) : ToolCallRecord :=
  { key := toolKey i.name i.params, toolName := i.name, resultKey := outcomeKey i.result i.error }

/-- Fold a sequence of record calls over a state. -/
def applyRecords (st : DetectorState) (l : List RecInput) : DetectorState :=
  l.foldl (fun s i => ToolLoopDetector.record s i.name i.params i.result i.error) st

/-- The maximal strictly alternating prefix of a (reversed) history: entries
must carry key a, b, a, b, ... in turn; the first mismatch stops it. -/
def altPrefix (a b : String) : List ToolCallRecord → List ToolCallRecord
  | [] => []
  | h :: rest => if h.key = a then h :: altPrefix b a rest else []

/-- The truthy outcome keys of the entries of l carrying the given call key,
in order. -/
def sideOutcomes (key : String) : List ToolCallRecord → List String
  | [] => []
  | h :: rest =>
    match h.resultKey with
    | some x => if h.key = key ∧ x ≠ "" then x :: sideOutcomes key rest else sideOutcomes key rest
    | none => sideOutcomes key rest

/-- Check that every listed string equals the accumulator, seeding the
accumulator with the first string seen. -/
def eqAllOpt : Option String → List String → Bool
  | _, [] => true
  | none, x :: xs => eqAllOpt (some x) xs
  | some a, x :: xs => (x == a) && eqAllOpt (some a) xs

/-- All strings in the list coincide. -/
def pairwiseEq (l : List String) : Prop := ∀ x ∈ l, ∀ y ∈ l, x = y

instance (l : List String) : Decidable (pairwiseEq l) :=
  inferInstanceAs (Decidable (∀ x ∈ l, ∀ y ∈ l, x = y))

/-- The ping-pong scan for currentKey observes more than one distinct truthy
outcome on one of the two alternating sides: the last recorded entry carries a
different key, and along the maximal alternating prefix of the backward scan
one side's truthy outcomes are not all equal. -/
def unstableFor (st : DetectorState) (currentKey : String) : Prop :=
  ∃ last, st.history.getLast? = some last ∧ last.key ≠ currentKey ∧
    (¬ pairwiseEq (sideOutcomes currentKey (altPrefix last.key currentKey st.history.reverse)) ∨
     ¬ pairwiseEq (sideOutcomes last.key (altPrefix last.key currentKey st.history.reverse)))

/-- The verdict is a critical block. -/
def isCritical : DetectionResult → Bool
  | .stuck .critical _ => true
  | _ => false

/-- The verdict is a warning. -/
def isWarning : DetectionResult → Bool
  | .stuck .warning _ => true
  | _ => false

/-- The error message of a failed outcome, if any. -/
def errOf : Except String JsonValue → Option String
  | .error e => some e
  | .ok _ => none

-- ─── Specification-layer definitions for key determinism ────────────────────

/-- Decimal digits of n, most significant first (reference form of natChars). -/
def coreDigits (n : Nat) : List Char :=
  if n < 10 then [Char.ofNat (48 + n % 10)]
  else coreDigits (n / 10) ++ [Char.ofNat (48 + n % 10)]
decreasing_by omega

/-- Value of a big-endian digit string. -/
def digitsVal (l : List Char) : Nat :=
  l.foldl (fun acc c => acc * 10 + (c.toNat - 48)) 0

/-- The character is a decimal digit. -/
def isDigitCh (c : Char) : Prop := 48 ≤ c.toNat ∧ c.toNat ≤ 57

instance (c : Char) : Decidable (isDigitCh c) :=
  inferInstanceAs (Decidable (_ ∧ _))

/-- The char list does not begin with a decimal digit (so it cannot extend a
preceding number literal). -/
def noDigitHead : List Char → Prop
  | [] => True
  | c :: _ => ¬ isDigitCh c

/-- Class of the first character of a serialization, used to tell the six
value shapes apart. -/
def classOf (Q : Char) : Nat :=
  if Q = 'n' then 0
  else if Q = 't' ∨ Q = 'f' then 1
  else if isDigitCh Q ∨ Q = '-' then 2
  else if Q = '"' then 3
  else if Q = '[' then 4
  else if Q = '{' then 5
  else 6

/-- Constructor index of a value. -/
def classIdx : JsonValue → Nat
  | .null => 0
  | .bool _ => 1
  | .num _ => 2
  | .str _ => 3
  | .arr _ => 4
  | .obj _ => 5

-- ─── Helper lemmas: no-progress streak ───────────────────────────────────────

open ToolLoopDetector

theorem isFalsy_some_of_ne (a : String) (ha : a ≠ "") : isFalsy (some a) = false := by
  show a.isEmpty = false
  rw [← Bool.not_eq_true, String.isEmpty_iff]
  exact ha

theorem streakGo_uniform (key a : String) (ha : a ≠ "") :
    ∀ l : List ToolCallRecord, (∀ e ∈ l, e.key = key ∧ e.resultKey = some a) →
      ∀ j, streakGo key l j (some a) = j + l.length := by
  intro l
  induction l with
  | nil => intro _ j; simp [streakGo]
  | cons e rest ih =>
    intro hall j
    obtain ⟨hk, hr⟩ := hall e (by simp)
    have hrest : ∀ x ∈ rest, x.key = key ∧ x.resultKey = some a := by
      intro x hx; exact hall x (by simp [hx])
    simp only [streakGo, hk, hr, isFalsy_some_of_ne a ha]
    rw [if_neg (by simp), if_neg (by simp), if_neg (by simp), if_neg (by simp)]
    rw [ih hrest (j + 1)]
    simp; omega

theorem streakGo_all (key a : String) (ha : a ≠ "") :
    ∀ l : List ToolCallRecord, (∀ e ∈ l, e.key = key ∧ e.resultKey = some a) →
      streakGo key l 0 none = l.length := by
  intro l hall
  cases l with
  | nil => simp [streakGo]
  | cons e rest =>
    obtain ⟨hk, hr⟩ := hall e (by simp)
    have hrest : ∀ x ∈ rest, x.key = key ∧ x.resultKey = some a := by
      intro x hx; exact hall x (by simp [hx])
    simp only [streakGo, hk, hr, isFalsy_some_of_ne a ha]
    rw [if_neg (by simp), if_neg (by simp), if_pos (by simp [isFalsy])]
    rw [streakGo_uniform key a ha rest hrest 1]
    simp [Nat.add_comm]

theorem getLast?_replicate_ne (n : Nat) (e : ToolCallRecord) (hn : n ≠ 0) :
    (List.replicate n e).getLast? = some e := by
  cases n with
  | zero => omega
  | succ m => rw [List.replicate_succ', List.getLast?_concat]

theorem streak_replicate (n : Nat) (e : ToolCallRecord) (b : List (String × Int))
    (a : String) (ha : a ≠ "") (hr : e.resultKey = some a) :
    getNoProgressStreak ⟨List.replicate n e, b⟩ e.key = n := by
  show streakGo e.key (List.replicate n e).reverse 0 none = n
  rw [List.reverse_replicate]
  rw [streakGo_all e.key a ha _ (by intro x hx; rw [List.eq_of_mem_replicate hx]; exact ⟨rfl, hr⟩)]
  exact List.length_replicate n e

theorem repeat_replicate (n : Nat) (e : ToolCallRecord) (b : List (String × Int)) :
    repeatCount ⟨List.replicate n e, b⟩ e.key = n := by
  show (List.filter _ (List.replicate n e)).length = n
  rw [List.filter_replicate, if_pos (by simp)]
  exact List.length_replicate n e

-- ─── Helper lemmas: ping-pong count ──────────────────────────────────────────

theorem pp_zero_short (st : DetectorState) (key : String) (h : st.history.length < 2) :
    getPingPongCount st key = 0 := by
  unfold getPingPongCount
  rw [if_pos h]

theorem pp_zero_lastSame (st : DetectorState) (key : String) (last : ToolCallRecord)
    (hl : st.history.getLast? = some last) (hk : last.key = key) :
    getPingPongCount st key = 0 := by
  unfold getPingPongCount
  split
  · rfl
  · rw [hl]
    simp [hk]

-- ─── Helper lemmas: detect on uniform histories ──────────────────────────────

theorem detect_uniform_warning (name tn : String) (params : JsonValue) (a : String)
    (b : List (String × Int)) (j : Nat) (ha : a ≠ "") (h10 : 10 ≤ j) (h19 : j ≤ 19) :
    detect ⟨List.replicate j ⟨toolKey name params, tn, some a⟩, b⟩ name params =
      .stuck .warning ("WARNING: " ++ name ++ " called " ++ toString j ++
        " times with identical arguments. If not progressing, stop retrying.") := by
  have hs : getNoProgressStreak ⟨List.replicate j ⟨toolKey name params, tn, some a⟩, b⟩
      (toolKey name params) = j :=
    streak_replicate j ⟨toolKey name params, tn, some a⟩ b a ha rfl
  have hp : getPingPongCount ⟨List.replicate j ⟨toolKey name params, tn, some a⟩, b⟩
      (toolKey name params) = 0 :=
    pp_zero_lastSame _ _ ⟨toolKey name params, tn, some a⟩
      (getLast?_replicate_ne j _ (by omega)) rfl
  have hr : repeatCount ⟨List.replicate j ⟨toolKey name params, tn, some a⟩, b⟩
      (toolKey name params) = j :=
    repeat_replicate j ⟨toolKey name params, tn, some a⟩ b
  simp only [ToolLoopDetector.detect, hs, hp, hr]
  rw [if_neg (by simp only [CIRCUIT_BREAKER_THRESHOLD]; omega),
      if_neg (by simp only [CRITICAL_THRESHOLD]; omega),
      if_neg (by simp only [CRITICAL_THRESHOLD]; omega),
      if_neg (by simp only [WARNING_THRESHOLD]; omega),
      if_pos (by simp only [WARNING_THRESHOLD]; omega)]

theorem readState_eq : ∀ n, n ≤ 30 → readState n = ⟨List.replicate n readEntry, []⟩ := by
  intro n
  induction n with
  | zero => intro _; rfl
  | succ m ih =>
    intro h
    show ToolLoopDetector.record (readState m) "read" readArgs none (some "ENOENT") = _
    rw [ih (by omega)]
    unfold ToolLoopDetector.record
    have hE : ({ key := toolKey "read" readArgs, toolName := "read",
                 resultKey := outcomeKey none (some "ENOENT") } : ToolCallRecord) = readEntry := by
      decide
    simp only [hE]
    rw [← List.replicate_succ']
    rw [if_neg (by simp only [HISTORY_SIZE, List.length_replicate]; omega)]

-- ─── C1: the end-to-end ENOENT scenario ──────────────────────────────────────

/-- C1: counterexample. In the scenario of twenty identical failing
("read", (path a.txt)) calls with check before each record, the 20th check
sees 19 recorded entries and returns a warning verdict, not the critical
verdict claimed. -/
theorem C1_counterexample :
    (readState 19).history.length = 19 ∧
    isCritical (detect (readState 19) "read" readArgs) = false ∧
    isWarning (detect (readState 19) "read" readArgs) = true := by
  refine ⟨by decide, by decide, by decide⟩

/-- C1, amended: the verdicts are shifted by one call. The check made with j
recorded matching entries (the j+1st check), for 10 <= j <= 19, returns the
generic-repeat warning naming j occurrences; the check with 20 recorded
entries (the 21st check) returns the no-progress critical verdict naming 20
occurrences; the check with 9 entries (the 10th check) is not-stuck. -/
theorem C1_amended :
    (∀ j, 10 ≤ j → j ≤ 19 →
      detect (readState j) "read" readArgs =
        .stuck .warning ("WARNING: read called " ++ toString j ++
          " times with identical arguments. If not progressing, stop retrying.")) ∧
    detect (readState 20) "read" readArgs =
      .stuck .critical "BLOCKED: read called 20 times with identical arguments and results. Stop retrying and try a different approach or report the task as failed." ∧
    detect (readState 9) "read" readArgs = .notStuck := by
  refine ⟨?_, by decide, by decide⟩
  intro j h10 h19
  rw [readState_eq j (by omega)]
  exact detect_uniform_warning "read" "read" readArgs "error:ENOENT" [] j (by decide) h10 h19

/-- C1, witness for the amended theorem at j = 15. -/
theorem C1_amended_witness :
    detect (readState 15) "read" readArgs =
      .stuck .warning ("WARNING: read called " ++ toString 15 ++
        " times with identical arguments. If not progressing, stop retrying.") :=
  C1_amended.1 15 (by decide) (by decide)

-- ─── C3: generic repeat with varying outcomes ────────────────────────────────

/-- C3: after 9 records of the same (search, q) pair with pairwise distinct
outcomes the next check is not-stuck (the no-progress streak is broken by the
varying outcomes and the repeat count is only 9); once the 10th matching call
is recorded, so the count reaches 10, the check returns the generic-repeat
warning stating the pair was called 10 times with identical arguments. -/
theorem C3_theorem :
    detect (varState 9) "search" (.str "q") = .notStuck ∧
    detect (varState 10) "search" (.str "q") =
      .stuck .warning "WARNING: search called 10 times with identical arguments. If not progressing, stop retrying." := by
  exact ⟨by decide, by decide⟩

-- ─── C7: outcome change collapses the streak ─────────────────────────────────

/-- C7: a history of n same-key records with truthy outcome a followed by one
record of the same key with a different truthy outcome b has no-progress
streak exactly 1, while the generic-repeat count is n + 1 and keeps growing. -/
theorem C7_theorem (n : Nat) (k tn a b : String) (bk : List (String × Int))
    (ha : a ≠ "") (hb : b ≠ "") (hab : a ≠ b) (hcap : n + 1 ≤ HISTORY_SIZE) :
    getNoProgressStreak ⟨List.replicate n ⟨k, tn, some a⟩ ++ [⟨k, tn, some b⟩], bk⟩ k = 1 ∧
    repeatCount ⟨List.replicate n ⟨k, tn, some a⟩ ++ [⟨k, tn, some b⟩], bk⟩ k = n + 1 := by
  constructor
  · show streakGo k ((List.replicate n (⟨k, tn, some a⟩ : ToolCallRecord) ++
        [(⟨k, tn, some b⟩ : ToolCallRecord)]).reverse) 0 none = 1
    rw [List.reverse_append, List.reverse_replicate, List.reverse_singleton,
        List.singleton_append]
    simp only [streakGo]
    rw [if_neg (by simp), if_neg (by simp [isFalsy_some_of_ne b hb]),
        if_pos (by simp [isFalsy])]
    cases n with
    | zero => simp [streakGo]
    | succ m =>
      rw [List.replicate_succ]
      simp only [streakGo]
      rw [if_neg (by simp), if_neg (by simp [isFalsy_some_of_ne a ha]),
          if_neg (by simp [isFalsy_some_of_ne b hb]),
          if_pos (by simp [hab])]
  · show (List.filter _ _).length = n + 1
    rw [List.filter_append, List.filter_replicate]
    simp

/-- C7, witness at n = 15 with error outcomes A then B. -/
theorem C7_witness :
    getNoProgressStreak
      ⟨List.replicate 15 ⟨"t:null", "t", some "error:A"⟩ ++ [⟨"t:null", "t", some "error:B"⟩], []⟩
      "t:null" = 1 ∧
    repeatCount
      ⟨List.replicate 15 ⟨"t:null", "t", some "error:A"⟩ ++ [⟨"t:null", "t", some "error:B"⟩], []⟩
      "t:null" = 15 + 1 :=
  C7_theorem 15 "t:null" "t" "error:A" "error:B" []
    (by decide) (by decide) (by decide) (by decide)

-- ─── C2: blocked attempts are recorded, but carry no OutcomeKey ──────────────

theorem streak_append_falsy (l : List ToolCallRecord) (b : List (String × Int))
    (e : ToolCallRecord) (he : isFalsy e.resultKey = true) (key : String) :
    getNoProgressStreak ⟨l ++ [e], b⟩ key = getNoProgressStreak ⟨l, b⟩ key := by
  show streakGo key ((l ++ [e]).reverse) 0 none = streakGo key l.reverse 0 none
  rw [List.reverse_append, List.reverse_singleton, List.singleton_append]
  by_cases hk : e.key = key
  · simp only [streakGo]
    rw [if_neg (by simp [hk]), if_pos he]
  · simp only [streakGo]
    rw [if_pos hk]

/-- C2: counterexample. From the critical state reached by twenty identical
failing read calls, the wrapped execute blocks (does not run the tool) and
records the attempted call — the history grows to 21 entries and the
generic-repeat count of the key becomes 21 — but the subsequent no-progress
streak computation for the same CallKey still yields 20: the blocked
attempt's entry, having no OutcomeKey, is skipped rather than counted. -/
theorem C2_counterexample :
    isCritical (detect (readState 20) "read" readArgs) = true ∧
    (wrappedExecute (readState 20) "read" readArgs (.error "ENOENT")).1.executed = false ∧
    errOf (wrappedExecute (readState 20) "read" readArgs (.error "ENOENT")).1.outcome ≠ none ∧
    ((wrappedExecute (readState 20) "read" readArgs (.error "ENOENT")).2).history.length = 21 ∧
    repeatCount (wrappedExecute (readState 20) "read" readArgs (.error "ENOENT")).2
      (toolKey "read" readArgs) = 21 ∧
    getNoProgressStreak (wrappedExecute (readState 20) "read" readArgs (.error "ENOENT")).2
      (toolKey "read" readArgs) = 20 := by
  refine ⟨by decide, by decide, by decide, by decide, by decide, by decide⟩

/-- C2, amended: on a critical verdict the wrapper records the attempted
call before signalling failure (the blocked attempt is appended to history
with no OutcomeKey and the verdict message is raised without executing), and
that entry counts toward the generic-repeat count of the CallKey but is
skipped by — neither counted in nor breaking — subsequent no-progress streak
computations (stated below eviction-free, history shorter than capacity). -/
theorem C2_amended (st : DetectorState) (name : String) (params : JsonValue)
    (run : Except String JsonValue) (msg : String)
    (hc : detect st name params = .stuck .critical msg) :
    wrappedExecute st name params run =
      (⟨.error msg, false, false⟩, ToolLoopDetector.record st name params none none) ∧
    (st.history.length < HISTORY_SIZE →
      getNoProgressStreak (ToolLoopDetector.record st name params none none)
          (toolKey name params) =
        getNoProgressStreak st (toolKey name params) ∧
      repeatCount (ToolLoopDetector.record st name params none none) (toolKey name params) =
        repeatCount st (toolKey name params) + 1) := by
  constructor
  · unfold wrappedExecute
    rw [hc]
  · intro hl
    have hrec : ToolLoopDetector.record st name params none none =
        ⟨st.history ++ [⟨toolKey name params, name, none⟩], st.warningBuckets⟩ := by
      simp only [ToolLoopDetector.record]
      rw [if_neg (by simp only [List.length_append, List.length_singleton]; omega)]
      rfl
    rw [hrec]
    constructor
    · exact streak_append_falsy st.history st.warningBuckets
        ⟨toolKey name params, name, none⟩ rfl (toolKey name params)
    · show (List.filter _ _).length = _
      rw [List.filter_append]
      simp [repeatCount]

/-- C2, witness for the amended theorem at the concrete critical state. -/
theorem C2_amended_witness :
    wrappedExecute (readState 20) "read" readArgs (.error "ENOENT") =
      (⟨.error "BLOCKED: read called 20 times with identical arguments and results. Stop retrying and try a different approach or report the task as failed.", false, false⟩,
       ToolLoopDetector.record (readState 20) "read" readArgs none none) ∧
    getNoProgressStreak (ToolLoopDetector.record (readState 20) "read" readArgs none none)
        (toolKey "read" readArgs) =
      getNoProgressStreak (readState 20) (toolKey "read" readArgs) :=
  ⟨(C2_amended (readState 20) "read" readArgs (.error "ENOENT")
      "BLOCKED: read called 20 times with identical arguments and results. Stop retrying and try a different approach or report the task as failed."
      (by decide)).1,
   ((C2_amended (readState 20) "read" readArgs (.error "ENOENT")
      "BLOCKED: read called 20 times with identical arguments and results. Stop retrying and try a different approach or report the task as failed."
      (by decide)).2 (by decide)).1⟩

-- ─── C9: check never mutates the state ───────────────────────────────────────

/-- C9: a check call leaves the detector state (history and warning-bucket
table) unchanged, and any API call that changes the history is a record or a
reset: detect reads the state without mutating it, and shouldWarn touches
only the bucket table. -/
theorem C9_theorem (st : DetectorState) (c : ApiCall) :
    (∀ n p, c = .check n p → (apiStep st c).2 = st) ∧
    ((apiStep st c).2.history ≠ st.history →
      (∃ n p r e, c = .record n p r e) ∨ c = .reset) := by
  cases c with
  | check n p => exact ⟨fun _ _ _ => rfl, fun hne => absurd rfl hne⟩
  | record n p r e => exact ⟨(fun _ _ h => nomatch h), fun _ => Or.inl ⟨n, p, r, e, rfl⟩⟩
  | shouldWarn n p =>
    refine ⟨(fun _ _ h => nomatch h), fun hne => absurd ?_ hne⟩
    show (ToolLoopDetector.shouldWarn st n p).2.history = st.history
    simp only [ToolLoopDetector.shouldWarn]
    split <;> rfl
  | reset => exact ⟨(fun _ _ h => nomatch h), fun _ => Or.inr rfl⟩

/-- C9, witness: checking mutates nothing on the empty state, and a record
call that does change the history is classified as a record. -/
theorem C9_witness :
    (apiStep emptyState (.check "read" readArgs)).2 = emptyState ∧
    ((∃ n p r e, (ApiCall.record "read" readArgs none (some "ENOENT")) = .record n p r e) ∨
      (ApiCall.record "read" readArgs none (some "ENOENT")) = .reset) :=
  ⟨(C9_theorem emptyState (.check "read" readArgs)).1 "read" readArgs rfl,
   (C9_theorem emptyState (.record "read" readArgs none (some "ENOENT"))).2 (by decide)⟩

-- ─── C6: warning deduplication buckets ───────────────────────────────────────

/-- C6: shouldWarn computes bucket = floor(count / 10) from the current
generic-repeat count; if the bucket does not exceed the last recorded bucket
for the CallKey (default -1) it returns false and leaves the state — in
particular the bucket table — unchanged, otherwise it records the new bucket
and returns true. Consequently, once the bucket 1 warning was surfaced for a
key, counts 10 through 19 yield false and a count of 20 yields true again. -/
theorem C6_theorem (st : DetectorState) (name : String) (params : JsonValue) :
    ((repeatCount st (toolKey name params) : Int) / 10 ≤
        ((st.warningBuckets.lookup (toolKey name params)).getD (-1)) →
      ToolLoopDetector.shouldWarn st name params = (false, st)) ∧
    (((st.warningBuckets.lookup (toolKey name params)).getD (-1)) <
        (repeatCount st (toolKey name params) : Int) / 10 →
      ToolLoopDetector.shouldWarn st name params =
        (true, ⟨st.history,
          bucketSet (toolKey name params) ((repeatCount st (toolKey name params) : Int) / 10)
            st.warningBuckets⟩)) ∧
    (st.warningBuckets.lookup (toolKey name params) = some 1 →
      (10 ≤ repeatCount st (toolKey name params) → repeatCount st (toolKey name params) ≤ 19 →
        (ToolLoopDetector.shouldWarn st name params).1 = false) ∧
      (20 ≤ repeatCount st (toolKey name params) →
        (ToolLoopDetector.shouldWarn st name params).1 = true)) := by
  have hbs : ((WARNING_BUCKET_SIZE : Nat) : Int) = 10 := by decide
  refine ⟨?_, ?_, ?_⟩
  · intro hle
    simp only [ToolLoopDetector.shouldWarn]
    rw [hbs, if_pos hle]
  · intro hlt
    simp only [ToolLoopDetector.shouldWarn]
    rw [hbs, if_neg (by omega)]
  · intro hlook
    constructor
    · intro h10 h19
      simp only [ToolLoopDetector.shouldWarn]
      rw [hbs, hlook]
      rw [if_pos (by simp only [Option.getD_some]; omega)]
    · intro h20
      simp only [ToolLoopDetector.shouldWarn]
      rw [hbs, hlook]
      rw [if_neg (by simp only [Option.getD_some]; omega)]

/-- C6, witness: after the count-10 warning recorded bucket 1 for the read
key, the same-state calls at counts 15 and 20 suppress and fire. -/
theorem C6_witness :
    (ToolLoopDetector.shouldWarn ⟨(readState 15).history, [(toolKey "read" readArgs, 1)]⟩
      "read" readArgs).1 = false ∧
    (ToolLoopDetector.shouldWarn ⟨(readState 20).history, [(toolKey "read" readArgs, 1)]⟩
      "read" readArgs).1 = true :=
  ⟨((C6_theorem ⟨(readState 15).history, [(toolKey "read" readArgs, 1)]⟩ "read" readArgs).2.2
      (by decide)).1 (by decide) (by decide),
   ((C6_theorem ⟨(readState 20).history, [(toolKey "read" readArgs, 1)]⟩ "read" readArgs).2.2
      (by decide)).2 (by decide)⟩

-- ─── C5: the bounded sliding window ──────────────────────────────────────────

theorem record_history (st : DetectorState) (name : String) (params : JsonValue)
    (result : Option JsonValue) (error : Option String) :
    (ToolLoopDetector.record st name params result error).history =
      if HISTORY_SIZE < st.history.length + 1 then
        (st.history ++ [(⟨toolKey name params, name, outcomeKey result error⟩ : ToolCallRecord)]).tail
      else st.history ++ [(⟨toolKey name params, name, outcomeKey result error⟩ : ToolCallRecord)] := by
  simp only [ToolLoopDetector.record, List.length_append, List.length_singleton]

theorem applyRecords_history (l : List RecInput) :
    ∀ st : DetectorState, st.history.length ≤ HISTORY_SIZE →
      (applyRecords st l).history =
        (st.history ++ l.map recEntry).drop ((st.history.length + l.length) - HISTORY_SIZE) := by
  induction l with
  | nil =>
    intro st h
    show st.history = _
    rw [List.map_nil, List.append_nil, List.length_nil, Nat.add_zero,
        Nat.sub_eq_zero_of_le h, List.drop_zero]
  | cons i rest ih =>
    intro st h
    show (applyRecords (ToolLoopDetector.record st i.name i.params i.result i.error) rest).history = _
    by_cases hlen : st.history.length + 1 ≤ HISTORY_SIZE
    · have hrec : (ToolLoopDetector.record st i.name i.params i.result i.error).history =
          st.history ++ [recEntry i] := by
        rw [record_history, if_neg (by omega)]
        rfl
      rw [ih _ (by rw [hrec, List.length_append, List.length_singleton]; omega), hrec]
      rw [List.length_append, List.length_singleton]
      have harith : st.history.length + 1 + rest.length - HISTORY_SIZE =
          st.history.length + (i :: rest).length - HISTORY_SIZE := by
        rw [List.length_cons]; omega
      rw [harith, List.append_assoc, List.singleton_append, List.map_cons]
    · have h30 : st.history.length = HISTORY_SIZE := by omega
      have hne : st.history ≠ [] := by
        intro hnil
        rw [hnil] at h30
        simp [HISTORY_SIZE] at h30
      have hrec : (ToolLoopDetector.record st i.name i.params i.result i.error).history =
          st.history.tail ++ [recEntry i] := by
        rw [record_history, if_pos (by omega), List.tail_append_of_ne_nil hne]
        rfl
      obtain ⟨h0, t, ht⟩ : ∃ h0 t, st.history = h0 :: t := by
        cases hh : st.history with
        | nil => exact absurd hh hne
        | cons x xs => exact ⟨x, xs, rfl⟩
      have hlent : t.length + 1 = HISTORY_SIZE := by
        rw [ht, List.length_cons] at h30
        exact h30
      rw [ih _ (by rw [hrec, ht, List.tail_cons, List.length_append, List.length_singleton]; omega),
          hrec, ht]
      simp only [List.tail_cons, List.length_cons, List.map_cons, List.cons_append,
        List.length_append, List.length_singleton]
      have harith : t.length + 1 + (rest.length + 1) - HISTORY_SIZE =
          (t.length + 1 + rest.length - HISTORY_SIZE) + 1 := by omega
      rw [harith, List.drop_succ_cons, List.append_assoc, List.singleton_append]
      simp

/-- C5: for every sequence of record calls applied to a fresh detector, the
history is exactly the most recent 30 recorded entries in recording order
(FIFO eviction of the oldest), its length never exceeds 30, and once more
than 30 calls are recorded the length is exactly 30. -/
theorem C5_theorem (l : List RecInput) :
    (applyRecords emptyState l).history = (l.map recEntry).drop (l.length - HISTORY_SIZE) ∧
    (applyRecords emptyState l).history.length ≤ HISTORY_SIZE ∧
    (HISTORY_SIZE < l.length → (applyRecords emptyState l).history.length = HISTORY_SIZE) := by
  have h := applyRecords_history l emptyState (by simp [emptyState, HISTORY_SIZE])
  rw [show emptyState.history = [] from rfl] at h
  simp only [List.nil_append, List.length_nil, Nat.zero_add] at h
  refine ⟨h, ?_, ?_⟩
  · rw [h, List.length_drop, List.length_map]
    simp only [HISTORY_SIZE]
    omega
  · intro hlen
    rw [h, List.length_drop, List.length_map]
    simp only [HISTORY_SIZE] at hlen ⊢
    omega

/-- C5, witness: after 31 identical record calls the window holds exactly 30
entries. -/
theorem C5_witness :
    (applyRecords emptyState
      (List.replicate 31 ⟨"read", readArgs, none, some "ENOENT"⟩)).history.length =
      HISTORY_SIZE :=
  (C5_theorem (List.replicate 31 ⟨"read", readArgs, none, some "ENOENT"⟩)).2.2 (by decide)

-- ─── C10: streak computations skip other keys entirely ───────────────────────

theorem streakGo_filter (key : String) :
    ∀ (l : List ToolCallRecord) (j : Nat) (ex : Option String),
      streakGo key l j ex = streakGo key (l.filter (fun h => h.key == key)) j ex := by
  intro l
  induction l with
  | nil => intro j ex; rfl
  | cons e rest ih =>
    intro j ex
    by_cases hk : e.key = key
    · rw [List.filter_cons_of_pos (by simp [hk])]
      by_cases h1 : isFalsy e.resultKey
      · simp only [streakGo]
        rw [if_neg (by simp [hk]), if_pos h1, if_neg (by simp [hk]), if_pos h1]
        exact ih j ex
      · by_cases h2 : isFalsy ex
        · simp only [streakGo]
          rw [if_neg (by simp [hk]), if_neg h1, if_pos h2,
              if_neg (by simp [hk]), if_neg h1, if_pos h2]
          exact ih 1 e.resultKey
        · by_cases h3 : e.resultKey = ex
          · simp only [streakGo]
            rw [if_neg (by simp [hk]), if_neg h1, if_neg h2, if_neg (by simp [h3]),
                if_neg (by simp [hk]), if_neg h1, if_neg h2, if_neg (by simp [h3])]
            exact ih (j + 1) ex
          · simp only [streakGo]
            rw [if_neg (by simp [hk]), if_neg h1, if_neg h2, if_pos h3,
                if_neg (by simp [hk]), if_neg h1, if_neg h2, if_pos h3]
    · rw [List.filter_cons_of_neg (by simp [hk])]
      simp only [streakGo]
      rw [if_pos hk]
      exact ih j ex

/-- C10: in the no-progress streak computation, entries whose CallKey differs
from the queried key are skipped entirely — the streak over a history equals
the streak over the subhistory of matching entries, so they neither count nor
break a streak; when all matching entries carry one identical truthy outcome
the streak equals the full (non-contiguous) match count; concretely, twenty
identical failing read calls interleaved with four other-tool calls still
produce the critical no-progress block, and thirty identical entries produce
the circuit-breaker block. -/
theorem C10_theorem :
    (∀ (l : List ToolCallRecord) (b : List (String × Int)) (key : String),
      getNoProgressStreak ⟨l, b⟩ key =
        getNoProgressStreak ⟨l.filter (fun h => h.key == key), b⟩ key) ∧
    (∀ (l : List ToolCallRecord) (b : List (String × Int)) (key a : String), a ≠ "" →
      (∀ e ∈ l, e.key = key → e.resultKey = some a) →
      getNoProgressStreak ⟨l, b⟩ key = repeatCount ⟨l, b⟩ key) ∧
    detect ⟨mixedHistory, []⟩ "read" readArgs =
      .stuck .critical "BLOCKED: read called 20 times with identical arguments and results. Stop retrying and try a different approach or report the task as failed." ∧
    detect (readState 30) "read" readArgs =
      .stuck .critical "BLOCKED: read repeated 30 times with no progress. Circuit breaker triggered — stop retrying and report the issue." := by
  refine ⟨?_, ?_, by decide, by decide⟩
  · intro l b key
    show streakGo key l.reverse 0 none = streakGo key (l.filter (fun h => h.key == key)).reverse 0 none
    rw [← List.filter_reverse]
    exact streakGo_filter key l.reverse 0 none
  · intro l b key a ha hall
    show streakGo key l.reverse 0 none = (l.filter (fun h => h.key == key)).length
    have huni : ∀ e ∈ (l.reverse.filter (fun h => h.key == key)), e.key = key ∧ e.resultKey = some a := by
      intro e he
      rw [List.mem_filter] at he
      have hk : e.key = key := by simpa using he.2
      exact ⟨hk, hall e (List.mem_reverse.mp he.1) hk⟩
    rw [streakGo_filter key l.reverse 0 none, streakGo_all key a ha _ huni,
        List.filter_reverse, List.length_reverse]

/-- C10, witness: on the interleaved history the streak equals the full match
count (20) even though the matching entries are not contiguous. -/
theorem C10_witness :
    getNoProgressStreak ⟨mixedHistory, []⟩ (toolKey "read" readArgs) =
      repeatCount ⟨mixedHistory, []⟩ (toolKey "read" readArgs) :=
  C10_theorem.2.1 mixedHistory [] (toolKey "read" readArgs) "error:ENOENT"
    (by decide) (by decide)

-- ─── C4: ping-pong detection ─────────────────────────────────────────────────

theorem eqAllOpt_some_true (a : String) :
    ∀ l : List String, eqAllOpt (some a) l = true → ∀ x ∈ l, x = a := by
  intro l
  induction l with
  | nil => intro _ x hx; cases hx
  | cons y ys ih =>
    intro hl x hx
    simp only [eqAllOpt, Bool.and_eq_true, beq_iff_eq] at hl
    rcases List.mem_cons.mp hx with hx | hx
    · rw [hx, hl.1]
    · exact ih hl.2 x hx

theorem eqAllOpt_none_pairwise (l : List String) (h : eqAllOpt none l = true) :
    pairwiseEq l := by
  cases l with
  | nil => intro x hx; cases hx
  | cons y ys =>
    have hall := eqAllOpt_some_true y ys h
    intro x hx z hz
    have hx' : x = y := by
      rcases List.mem_cons.mp hx with h' | h'
      · exact h'
      · exact hall x h'
    have hz' : z = y := by
      rcases List.mem_cons.mp hz with h' | h'
      · exact h'
      · exact hall z h'
    rw [hx', hz']

theorem ppGo_spec (cur other : String) (hco : other ≠ cur) :
    ∀ (l : List ToolCallRecord) (count : Nat) (x y : String) (rA rB : Option String) (np : Bool),
      rA ≠ some "" → rB ≠ some "" →
      ((count % 2 = 0 ∧ x = other ∧ y = cur) ∨ (count % 2 = 1 ∧ x = cur ∧ y = other)) →
      ppGo cur other l count rA rB np =
        (count + (altPrefix x y l).length,
         np && eqAllOpt rA (sideOutcomes cur (altPrefix x y l))
            && eqAllOpt rB (sideOutcomes other (altPrefix x y l))) := by
  intro l
  induction l with
  | nil =>
    intro count x y rA rB np _ _ _
    simp [ppGo, altPrefix, sideOutcomes, eqAllOpt]
  | cons h rest ih =>
    intro count x y rA rB np hA hB hxy
    rcases hxy with ⟨hpar, hx, hy⟩ | ⟨hpar, hx, hy⟩
    · -- even position: the expected key is other, here renamed x
      subst hx; subst hy
      simp only [ppGo]
      rw [if_pos hpar]
      by_cases hk : h.key = x
      · have hky : h.key ≠ y := by rw [hk]; exact hco
        rw [if_neg (by simp [hk])]
        have halt : altPrefix x y (h :: rest) = h :: altPrefix y x rest := by
          simp only [altPrefix]
          rw [if_pos hk]
        rw [halt]
        cases hres : h.resultKey with
        | none =>
          have hacc : (if isFalsy (none : Option String) then (rA, rB, np)
                else if h.key = y then
                  if isFalsy rA then ((none : Option String), rB, np)
                  else if (none : Option String) ≠ rA then (rA, rB, false) else (rA, rB, np)
                else
                  if isFalsy rB then (rA, (none : Option String), np)
                  else if (none : Option String) ≠ rB then (rA, rB, false) else (rA, rB, np)) = (rA, rB, np) := rfl
          rw [hacc]
          dsimp only
          rw [ih (count + 1) y x rA rB np hA hB (Or.inr ⟨by omega, rfl, rfl⟩)]
          have hSc : sideOutcomes y (h :: altPrefix y x rest) =
              sideOutcomes y (altPrefix y x rest) := by
            simp only [sideOutcomes, hres]
          have hSo : sideOutcomes x (h :: altPrefix y x rest) =
              sideOutcomes x (altPrefix y x rest) := by
            simp only [sideOutcomes, hres]
          rw [hSc, hSo]
          simp only [Prod.mk.injEq, List.length_cons]
          exact ⟨by omega, by trivial⟩
        | some v =>
          by_cases hv : v = ""
          · subst hv
            have hacc : (if isFalsy (some "") then (rA, rB, np)
                else if h.key = y then
                  if isFalsy rA then ((some ""), rB, np)
                  else if (some "") ≠ rA then (rA, rB, false) else (rA, rB, np)
                else
                  if isFalsy rB then (rA, (some ""), np)
                  else if (some "") ≠ rB then (rA, rB, false) else (rA, rB, np)) = (rA, rB, np) := rfl
            rw [hacc]
            dsimp only
            rw [ih (count + 1) y x rA rB np hA hB (Or.inr ⟨by omega, rfl, rfl⟩)]
            have hSc : sideOutcomes y (h :: altPrefix y x rest) =
                sideOutcomes y (altPrefix y x rest) := by
              simp only [sideOutcomes, hres]
              rw [if_neg (by simp)]
            have hSo : sideOutcomes x (h :: altPrefix y x rest) =
                sideOutcomes x (altPrefix y x rest) := by
              simp only [sideOutcomes, hres]
              rw [if_neg (by simp)]
            rw [hSc, hSo]
            simp only [Prod.mk.injEq, List.length_cons]
            exact ⟨by omega, by trivial⟩
          · have hfal : ¬ (isFalsy (some v) = true) := by
              rw [isFalsy_some_of_ne v hv]
              simp
            have hSc : sideOutcomes y (h :: altPrefix y x rest) =
                sideOutcomes y (altPrefix y x rest) := by
              simp only [sideOutcomes, hres]
              rw [if_neg (by simp [hky])]
            have hSo : sideOutcomes x (h :: altPrefix y x rest) =
                v :: sideOutcomes x (altPrefix y x rest) := by
              simp only [sideOutcomes, hres]
              rw [if_pos ⟨hk, hv⟩]
            cases rB with
            | none =>
              have hacc : (if isFalsy (some v) then (rA, (none : Option String), np)
                else if h.key = y then
                  if isFalsy rA then ((some v), (none : Option String), np)
                  else if (some v) ≠ rA then (rA, (none : Option String), false) else (rA, (none : Option String), np)
                else
                  if isFalsy (none : Option String) then (rA, (some v), np)
                  else if (some v) ≠ (none : Option String) then (rA, (none : Option String), false) else (rA, (none : Option String), np)) = (rA, some v, np) := by
                rw [if_neg hfal, if_neg hky, if_pos (by rfl)]
              rw [hacc]
              dsimp only
              rw [ih (count + 1) y x rA (some v) np hA (by simp [hv])
                (Or.inr ⟨by omega, rfl, rfl⟩)]
              rw [hSc, hSo]
              simp only [Prod.mk.injEq, List.length_cons, eqAllOpt]
              exact ⟨by omega, by trivial⟩
            | some b =>
              have hb : b ≠ "" := fun hb0 => hB (by rw [hb0])
              by_cases hvb : v = b
              · subst hvb
                have hacc : (if isFalsy (some v) then (rA, (some v), np)
                else if h.key = y then
                  if isFalsy rA then ((some v), (some v), np)
                  else if (some v) ≠ rA then (rA, (some v), false) else (rA, (some v), np)
                else
                  if isFalsy (some v) then (rA, (some v), np)
                  else if (some v) ≠ (some v) then (rA, (some v), false) else (rA, (some v), np)) = (rA, some v, np) := by
                  rw [if_neg hfal, if_neg hky,
                      if_neg (by rw [isFalsy_some_of_ne v hv]; simp),
                      if_neg (by simp)]
                rw [hacc]
                dsimp only
                rw [ih (count + 1) y x rA (some v) np hA (by simp [hv])
                  (Or.inr ⟨by omega, rfl, rfl⟩)]
                rw [hSc, hSo]
                simp only [Prod.mk.injEq, List.length_cons, eqAllOpt, beq_self_eq_true, Bool.true_and]
                exact ⟨by omega, by trivial⟩
              · have hacc : (if isFalsy (some v) then (rA, (some b), np)
                else if h.key = y then
                  if isFalsy rA then ((some v), (some b), np)
                  else if (some v) ≠ rA then (rA, (some b), false) else (rA, (some b), np)
                else
                  if isFalsy (some b) then (rA, (some v), np)
                  else if (some v) ≠ (some b) then (rA, (some b), false) else (rA, (some b), np)) = (rA, some b, false) := by
                  rw [if_neg hfal, if_neg hky,
                      if_neg (by rw [isFalsy_some_of_ne b hb]; simp),
                      if_pos (by simp [hvb])]
                rw [hacc]
                dsimp only
                rw [ih (count + 1) y x rA (some b) false hA hB (Or.inr ⟨by omega, rfl, rfl⟩)]
                rw [hSc, hSo]
                simp only [Prod.mk.injEq, List.length_cons, eqAllOpt]
                refine ⟨by omega, ?_⟩
                rw [show (v == b) = false by simp [hvb]]
                simp
      · rw [if_pos hk]
        have halt : altPrefix x y (h :: rest) = [] := by
          simp only [altPrefix]
          rw [if_neg hk]
        rw [halt]
        simp [sideOutcomes, eqAllOpt]
    · -- odd position: the expected key is cur, here renamed x
      subst hx; subst hy
      have hpar0 : ¬ count % 2 = 0 := by omega
      simp only [ppGo]
      rw [if_neg hpar0]
      by_cases hk : h.key = x
      · have hky : h.key ≠ y := by rw [hk]; exact fun hh => hco hh.symm
        rw [if_neg (by simp [hk])]
        have halt : altPrefix x y (h :: rest) = h :: altPrefix y x rest := by
          simp only [altPrefix]
          rw [if_pos hk]
        rw [halt]
        cases hres : h.resultKey with
        | none =>
          have hacc : (if isFalsy (none : Option String) then (rA, rB, np)
                else if h.key = x then
                  if isFalsy rA then ((none : Option String), rB, np)
                  else if (none : Option String) ≠ rA then (rA, rB, false) else (rA, rB, np)
                else
                  if isFalsy rB then (rA, (none : Option String), np)
                  else if (none : Option String) ≠ rB then (rA, rB, false) else (rA, rB, np)) = (rA, rB, np) := rfl
          rw [hacc]
          dsimp only
          rw [ih (count + 1) y x rA rB np hA hB (Or.inl ⟨by omega, rfl, rfl⟩)]
          have hSc : sideOutcomes x (h :: altPrefix y x rest) =
              sideOutcomes x (altPrefix y x rest) := by
            simp only [sideOutcomes, hres]
          have hSo : sideOutcomes y (h :: altPrefix y x rest) =
              sideOutcomes y (altPrefix y x rest) := by
            simp only [sideOutcomes, hres]
          rw [hSc, hSo]
          simp only [Prod.mk.injEq, List.length_cons]
          exact ⟨by omega, by trivial⟩
        | some v =>
          by_cases hv : v = ""
          · subst hv
            have hacc : (if isFalsy (some "") then (rA, rB, np)
                else if h.key = x then
                  if isFalsy rA then ((some ""), rB, np)
                  else if (some "") ≠ rA then (rA, rB, false) else (rA, rB, np)
                else
                  if isFalsy rB then (rA, (some ""), np)
                  else if (some "") ≠ rB then (rA, rB, false) else (rA, rB, np)) = (rA, rB, np) := rfl
            rw [hacc]
            dsimp only
            rw [ih (count + 1) y x rA rB np hA hB (Or.inl ⟨by omega, rfl, rfl⟩)]
            have hSc : sideOutcomes x (h :: altPrefix y x rest) =
                sideOutcomes x (altPrefix y x rest) := by
              simp only [sideOutcomes, hres]
              rw [if_neg (by simp)]
            have hSo : sideOutcomes y (h :: altPrefix y x rest) =
                sideOutcomes y (altPrefix y x rest) := by
              simp only [sideOutcomes, hres]
              rw [if_neg (by simp)]
            rw [hSc, hSo]
            simp only [Prod.mk.injEq, List.length_cons]
            exact ⟨by omega, by trivial⟩
          · have hfal : ¬ (isFalsy (some v) = true) := by
              rw [isFalsy_some_of_ne v hv]
              simp
            have hSc : sideOutcomes x (h :: altPrefix y x rest) =
                v :: sideOutcomes x (altPrefix y x rest) := by
              simp only [sideOutcomes, hres]
              rw [if_pos ⟨hk, hv⟩]
            have hSo : sideOutcomes y (h :: altPrefix y x rest) =
                sideOutcomes y (altPrefix y x rest) := by
              simp only [sideOutcomes, hres]
              rw [if_neg (by simp [hky])]
            cases rA with
            | none =>
              have hacc : (if isFalsy (some v) then ((none : Option String), rB, np)
                else if h.key = x then
                  if isFalsy (none : Option String) then ((some v), rB, np)
                  else if (some v) ≠ (none : Option String) then ((none : Option String), rB, false) else ((none : Option String), rB, np)
                else
                  if isFalsy rB then ((none : Option String), (some v), np)
                  else if (some v) ≠ rB then ((none : Option String), rB, false) else ((none : Option String), rB, np)) = (some v, rB, np) := by
                rw [if_neg hfal, if_pos hk, if_pos (by rfl)]
              rw [hacc]
              dsimp only
              rw [ih (count + 1) y x (some v) rB np (by simp [hv]) hB
                (Or.inl ⟨by omega, rfl, rfl⟩)]
              rw [hSc, hSo]
              simp only [Prod.mk.injEq, List.length_cons, eqAllOpt]
              exact ⟨by omega, by trivial⟩
            | some b =>
              have hb : b ≠ "" := fun hb0 => hA (by rw [hb0])
              by_cases hvb : v = b
              · subst hvb
                have hacc : (if isFalsy (some v) then ((some v), rB, np)
                else if h.key = x then
                  if isFalsy (some v) then ((some v), rB, np)
                  else if (some v) ≠ (some v) then ((some v), rB, false) else ((some v), rB, np)
                else
                  if isFalsy rB then ((some v), (some v), np)
                  else if (some v) ≠ rB then ((some v), rB, false) else ((some v), rB, np)) = (some v, rB, np) := by
                  rw [if_neg hfal, if_pos hk,
                      if_neg (by rw [isFalsy_some_of_ne v hv]; simp),
                      if_neg (by simp)]
                rw [hacc]
                dsimp only
                rw [ih (count + 1) y x (some v) rB np (by simp [hv]) hB
                  (Or.inl ⟨by omega, rfl, rfl⟩)]
                rw [hSc, hSo]
                simp only [Prod.mk.injEq, List.length_cons, eqAllOpt, beq_self_eq_true, Bool.true_and]
                exact ⟨by omega, by trivial⟩
              · have hacc : (if isFalsy (some v) then ((some b), rB, np)
                else if h.key = x then
                  if isFalsy (some b) then ((some v), rB, np)
                  else if (some v) ≠ (some b) then ((some b), rB, false) else ((some b), rB, np)
                else
                  if isFalsy rB then ((some b), (some v), np)
                  else if (some v) ≠ rB then ((some b), rB, false) else ((some b), rB, np)) = (some b, rB, false) := by
                  rw [if_neg hfal, if_pos hk,
                      if_neg (by rw [isFalsy_some_of_ne b hb]; simp),
                      if_pos (by simp [hvb])]
                rw [hacc]
                dsimp only
                rw [ih (count + 1) y x (some b) rB false hA hB (Or.inl ⟨by omega, rfl, rfl⟩)]
                rw [hSc, hSo]
                simp only [Prod.mk.injEq, List.length_cons, eqAllOpt]
                refine ⟨by omega, ?_⟩
                rw [show (v == b) = false by simp [hvb]]
                simp
      · rw [if_pos hk]
        have halt : altPrefix x y (h :: rest) = [] := by
          simp only [altPrefix]
          rw [if_neg hk]
        rw [halt]
        simp [sideOutcomes, eqAllOpt]

theorem pp_zero_unstable (st : DetectorState) (key : String)
    (hu : unstableFor st key) : getPingPongCount st key = 0 := by
  obtain ⟨last, hlast, hne, hside⟩ := hu
  unfold getPingPongCount
  split
  · rfl
  · rw [hlast]
    dsimp only
    rw [if_neg hne]
    have hspec := ppGo_spec key last.key hne st.history.reverse 0 last.key key none none true
      (by simp) (by simp) (Or.inl ⟨rfl, rfl, rfl⟩)
    rw [hspec]
    dsimp only
    have hfalse : (true &&
        eqAllOpt none (sideOutcomes key (altPrefix last.key key st.history.reverse)) &&
        eqAllOpt none (sideOutcomes last.key (altPrefix last.key key st.history.reverse))) =
        false := by
      rcases hside with hs | hs
      · cases hA : eqAllOpt none (sideOutcomes key (altPrefix last.key key st.history.reverse)) with
        | false => simp
        | true => exact absurd (eqAllOpt_none_pairwise _ hA) hs
      · cases hBt : eqAllOpt none (sideOutcomes last.key (altPrefix last.key key st.history.reverse)) with
        | false => simp
        | true => exact absurd (eqAllOpt_none_pairwise _ hBt) hs
    rw [if_pos (Or.inr hfalse)]

/-- C4: the ping-pong detector. If the most recent entry's CallKey equals the
current call's key the count is 0; if the backward alternating scan observes
more than one distinct truthy OutcomeKey on either side, the count is 0 and
hence no ping-pong verdict of any severity is produced regardless of the
alternation length (concretely, the 19-entry alternation with one changed
outcome checks as not-stuck); with stable outcomes on both sides, a ping-pong
count of 10 yields the warning verdict and one of 20 yields the critical
block. -/
theorem C4_theorem :
    (∀ (st : DetectorState) (key : String) (last : ToolCallRecord),
      st.history.getLast? = some last → last.key = key → getPingPongCount st key = 0) ∧
    (∀ (st : DetectorState) (key : String), unstableFor st key →
      getPingPongCount st key = 0) ∧
    detect ⟨altHistoryChanged, []⟩ "a" .null = .notStuck ∧
    detect ⟨altHistory 9, []⟩ "a" .null =
      .stuck .warning "WARNING: Alternating tool pattern (10 calls). Possible ping-pong loop — if not progressing, stop retrying." ∧
    detect ⟨altHistory 19, []⟩ "a" .null =
      .stuck .critical "BLOCKED: Alternating tool pattern detected (20 calls with no progress). Ping-pong loop — stop and try a different approach." :=
  ⟨fun st key last hl hk => pp_zero_lastSame st key last hl hk,
   fun st key hu => pp_zero_unstable st key hu,
   by decide, by decide, by decide⟩

/-- C4, witness: a same-key tail gives count 0, and the outcome-changed
alternation is unstable for the a-side and gives count 0. -/
theorem C4_witness :
    getPingPongCount (readState 2) (toolKey "read" readArgs) = 0 ∧
    getPingPongCount ⟨altHistoryChanged, []⟩ (toolKey "a" .null) = 0 :=
  ⟨C4_theorem.1 (readState 2) (toolKey "read" readArgs) readEntry (by decide) (by decide),
   C4_theorem.2.1 ⟨altHistoryChanged, []⟩ (toolKey "a" .null)
     ⟨entryB, by decide, by decide, Or.inl (by decide)⟩⟩

-- ─── C8: key determinism — induction principle and decimal digits ────────────

theorem jsonInduct (P : JsonValue → Prop)
    (h0 : P .null) (h1 : ∀ b, P (.bool b)) (h2 : ∀ n, P (.num n)) (h3 : ∀ s, P (.str s))
    (h4 : ∀ xs, (∀ v, v ∈ xs → P v) → P (.arr xs))
    (h5 : ∀ fs, (∀ k v, (k, v) ∈ fs → P v) → P (.obj fs)) :
    ∀ v, P v
  | .null => h0
  | .bool b => h1 b
  | .num n => h2 n
  | .str s => h3 s
  | .arr xs => h4 xs (fun v hv => jsonInduct P h0 h1 h2 h3 h4 h5 v)
  | .obj fs => h5 fs (fun k v hkv => jsonInduct P h0 h1 h2 h3 h4 h5 v)
termination_by v => sizeOf v
decreasing_by
  · have hlt := List.sizeOf_lt_of_mem hv
    simp only [JsonValue.arr.sizeOf_spec]
    omega
  · have hlt := List.sizeOf_lt_of_mem hkv
    simp only [JsonValue.obj.sizeOf_spec, Prod.mk.sizeOf_spec] at *
    omega

theorem charOfDigit_toNat (k : Nat) (hk : k < 10) : (Char.ofNat (48 + k)).toNat = 48 + k := by
  interval_cases k <;> decide

theorem natCharsAux_eq_core : ∀ (fuel n : Nat) (acc : List Char), n < fuel →
    natCharsAux fuel n acc = coreDigits n ++ acc := by
  intro fuel
  induction fuel with
  | zero => intro n acc h; omega
  | succ f ih =>
    intro n acc hn
    simp only [natCharsAux]
    by_cases h : n < 10
    · rw [if_pos h]
      unfold coreDigits
      rw [if_pos h, List.singleton_append]
    · rw [if_neg h, ih (n / 10) _ (by omega)]
      conv_rhs => rw [coreDigits]
      rw [if_neg h, List.append_assoc, List.singleton_append]

theorem natChars_eq_core (n : Nat) : natChars n = coreDigits n := by
  unfold natChars
  rw [natCharsAux_eq_core (n + 1) n [] (by omega), List.append_nil]

theorem digitsVal_append_one (xs : List Char) (c : Char) :
    digitsVal (xs ++ [c]) = digitsVal xs * 10 + (c.toNat - 48) := by
  unfold digitsVal
  rw [List.foldl_append]
  rfl

theorem digitsVal_core (n : Nat) : digitsVal (coreDigits n) = n := by
  induction n using Nat.strong_induction_on with
  | _ n ih =>
    by_cases h : n < 10
    · rw [coreDigits, if_pos h]
      unfold digitsVal
      simp only [List.foldl_cons, List.foldl_nil]
      rw [charOfDigit_toNat (n % 10) (by omega)]
      omega
    · rw [coreDigits, if_neg h, digitsVal_append_one, ih (n / 10) (by omega),
          charOfDigit_toNat (n % 10) (by omega)]
      omega

theorem natChars_inj (m n : Nat) (h : natChars m = natChars n) : m = n := by
  rw [natChars_eq_core, natChars_eq_core] at h
  rw [← digitsVal_core m, ← digitsVal_core n, h]

theorem coreDigits_digits (n : Nat) : ∀ c ∈ coreDigits n, isDigitCh c := by
  induction n using Nat.strong_induction_on with
  | _ n ih =>
    intro c hc
    by_cases h : n < 10
    · rw [coreDigits, if_pos h] at hc
      simp only [List.mem_singleton] at hc
      rw [hc]
      constructor <;> rw [charOfDigit_toNat (n % 10) (by omega)] <;> omega
    · rw [coreDigits, if_neg h] at hc
      rcases List.mem_append.mp hc with h' | h'
      · exact ih (n / 10) (by omega) c h'
      · simp only [List.mem_singleton] at h'
        rw [h']
        constructor <;> rw [charOfDigit_toNat (n % 10) (by omega)] <;> omega

theorem coreDigits_ne_nil (n : Nat) : coreDigits n ≠ [] := by
  rw [coreDigits]
  by_cases h : n < 10
  · rw [if_pos h]; simp
  · rw [if_neg h]; simp

theorem digits_prefix_det :
    ∀ (d1 d2 r s : List Char), (∀ c ∈ d1, isDigitCh c) → (∀ c ∈ d2, isDigitCh c) →
      noDigitHead r → noDigitHead s → d1 ++ r = d2 ++ s → d1 = d2 ∧ r = s := by
  intro d1
  induction d1 with
  | nil =>
    intro d2 r s _ hd2 hr _ h
    cases d2 with
    | nil => exact ⟨rfl, h⟩
    | cons c t =>
      rw [List.nil_append, List.cons_append] at h
      rw [h] at hr
      exact absurd (hd2 c (by simp)) hr
  | cons c t ih =>
    intro d2 r s hd1 hd2 hr hs h
    cases d2 with
    | nil =>
      rw [List.nil_append, List.cons_append] at h
      rw [← h] at hs
      exact absurd (hd1 c (by simp)) hs
    | cons c' t' =>
      rw [List.cons_append, List.cons_append] at h
      injection h with hc ht
      obtain ⟨h1, h2⟩ := ih t' r s (fun x hx => hd1 x (by simp [hx]))
        (fun x hx => hd2 x (by simp [hx])) hr hs ht
      exact ⟨by rw [hc, h1], h2⟩

theorem charToNatInj (c d : Char) (h : c.toNat = d.toNat) : c = d := by
  rw [← Char.ofNat_toNat c, ← Char.ofNat_toNat d, h]

theorem natChars_det (m n : Nat) (r s : List Char) (hr : noDigitHead r) (hs : noDigitHead s)
    (h : natChars m ++ r = natChars n ++ s) : m = n ∧ r = s := by
  rw [natChars_eq_core, natChars_eq_core] at h
  obtain ⟨h1, h2⟩ := digits_prefix_det (coreDigits m) (coreDigits n) r s
    (coreDigits_digits m) (coreDigits_digits n) hr hs h
  refine ⟨?_, h2⟩
  rw [← digitsVal_core m, ← digitsVal_core n, h1]

theorem intChars_det (i j : Int) (r s : List Char) (hr : noDigitHead r) (hs : noDigitHead s)
    (h : intChars i ++ r = intChars j ++ s) : i = j ∧ r = s := by
  have hminus : ¬ isDigitCh '-' := by decide
  cases i with
  | ofNat m =>
    cases j with
    | ofNat n =>
      obtain ⟨h1, h2⟩ := natChars_det m n r s hr hs h
      exact ⟨by rw [h1], h2⟩
    | negSucc n =>
      exfalso
      simp only [intChars, natChars_eq_core] at h
      obtain ⟨c, t, hct⟩ : ∃ c t, coreDigits m = c :: t := by
        cases hcd : coreDigits m with
        | nil => exact absurd hcd (coreDigits_ne_nil m)
        | cons c t => exact ⟨c, t, rfl⟩
      rw [hct, List.cons_append, List.cons_append] at h
      injection h with hc _
      have := coreDigits_digits m c (by rw [hct]; simp)
      rw [hc] at this
      exact hminus this
  | negSucc m =>
    cases j with
    | ofNat n =>
      exfalso
      simp only [intChars, natChars_eq_core] at h
      obtain ⟨c, t, hct⟩ : ∃ c t, coreDigits n = c :: t := by
        cases hcd : coreDigits n with
        | nil => exact absurd hcd (coreDigits_ne_nil n)
        | cons c t => exact ⟨c, t, rfl⟩
      rw [hct, List.cons_append, List.cons_append] at h
      injection h with hc _
      have := coreDigits_digits n c (by rw [hct]; simp)
      rw [← hc] at this
      exact hminus this
    | negSucc n =>
      simp only [intChars, List.cons_append] at h
      injection h with _ ht
      obtain ⟨h1, h2⟩ := natChars_det (m + 1) (n + 1) r s hr hs ht
      have hmn : m = n := by omega
      exact ⟨by rw [hmn], h2⟩

-- ─── C8: string escaping determinism ─────────────────────────────────────────

theorem hexDigitChar_inj : ∀ a < 16, ∀ b < 16, hexDigitChar a = hexDigitChar b → a = b := by
  decide

set_option maxHeartbeats 2000000 in
theorem escStartDet (c1 c2 : Char) (x y : List Char)
    (h : escChar c1 ++ x = escChar c2 ++ y) : c1 = c2 ∧ x = y := by
  unfold escChar at h
  split_ifs at h <;>
    simp only [List.cons_append, List.nil_append, List.cons.injEq, true_and] at h <;>
    first
      | (simp_all; done)
      | (exact absurd h.1.symm ‹¬c2 = '\\'›)
      | (exact absurd h.1 ‹¬c1 = '\\'›)
      | (obtain ⟨ha, hb, hxy⟩ := h
         refine ⟨charToNatInj c1 c2 ?_, hxy⟩
         have e1 := hexDigitChar_inj (c1.toNat / 16) (by omega) (c2.toNat / 16) (by omega) ha
         have e2 := hexDigitChar_inj (c1.toNat % 16) (by omega) (c2.toNat % 16) (by omega) hb
         omega)

theorem escChar_head (c : Char) : ∃ cc t, escChar c = cc :: t ∧ cc ≠ '"' := by
  unfold escChar
  split_ifs <;> exact ⟨_, _, rfl, by first | decide | assumption⟩

theorem escDet : ∀ (u w r s : List Char),
    escList u ++ '"' :: r = escList w ++ '"' :: s → u = w ∧ r = s := by
  intro u
  induction u with
  | nil =>
    intro w r s h
    cases w with
    | nil =>
      simp only [escList, List.nil_append, List.cons.injEq, true_and] at h
      exact ⟨rfl, h⟩
    | cons c t =>
      exfalso
      obtain ⟨cc, tt, hcc, hnq⟩ := escChar_head c
      rw [show escList (c :: t) = escChar c ++ escList t from rfl, hcc] at h
      simp only [List.nil_append, List.cons_append, List.append_assoc] at h
      injection h with h1 _
      exact hnq h1.symm
  | cons c t ih =>
    intro w r s h
    cases w with
    | nil =>
      exfalso
      obtain ⟨cc, tt, hcc, hnq⟩ := escChar_head c
      rw [show escList (c :: t) = escChar c ++ escList t from rfl, hcc] at h
      simp only [List.nil_append, List.cons_append, List.append_assoc] at h
      injection h with h1 _
      exact hnq h1
    | cons c' t' =>
      rw [show escList (c :: t) = escChar c ++ escList t from rfl,
          show escList (c' :: t') = escChar c' ++ escList t' from rfl] at h
      rw [List.append_assoc, List.append_assoc] at h
      obtain ⟨hc, htail⟩ := escStartDet c c' _ _ h
      obtain ⟨h1, h2⟩ := ih t' r s htail
      exact ⟨by rw [hc, h1], h2⟩

-- ─── C8: sorting lemmas and canonical-form invariance ────────────────────────

theorem sortByKey_idem {α : Type} (l : List (String × α)) :
    sortByKey (sortByKey l) = sortByKey l :=
  List.Sorted.insertionSort_eq (List.sorted_insertionSort keyLe l)

theorem orderedInsert_map {α β : Type} (f : α → β) (p : String × α) :
    ∀ l : List (String × α),
      List.orderedInsert keyLe (p.1, f p.2) (l.map (fun q => (q.1, f q.2))) =
        (List.orderedInsert keyLe p l).map (fun q => (q.1, f q.2)) := by
  intro l
  induction l with
  | nil => rfl
  | cons q rest ih =>
    simp only [List.map_cons, List.orderedInsert]
    by_cases h : keyLe p q
    · have h' : keyLe (p.1, f p.2) (q.1, f q.2) := h
      rw [if_pos h, if_pos h']
      simp
    · have h' : ¬ keyLe (p.1, f p.2) (q.1, f q.2) := h
      rw [if_neg h, if_neg h', List.map_cons, ih]

theorem sortByKey_map {α β : Type} (f : α → β) :
    ∀ l : List (String × α),
      sortByKey (l.map (fun q => (q.1, f q.2))) =
        (sortByKey l).map (fun q => (q.1, f q.2)) := by
  intro l
  induction l with
  | nil => rfl
  | cons p rest ih =>
    unfold sortByKey at *
    simp only [List.map_cons, List.insertionSort]
    rw [ih]
    exact orderedInsert_map f p (List.insertionSort keyLe rest)

theorem serFieldsL_eq : ∀ fs : List (String × JsonValue),
    serFieldsL fs = fs.map (fun q => (q.1, serL q.2)) := by
  intro fs
  induction fs with
  | nil => rfl
  | cons p rest ih =>
    obtain ⟨k, v⟩ := p
    simp only [serFieldsL, List.map_cons, ih]

theorem canonFields_eq : ∀ fs : List (String × JsonValue),
    canonFields fs = fs.map (fun q => (q.1, canon q.2)) := by
  intro fs
  induction fs with
  | nil => rfl
  | cons p rest ih =>
    obtain ⟨k, v⟩ := p
    simp only [canonFields, List.map_cons, ih]

theorem canonList_eq : ∀ xs : List JsonValue, canonList xs = xs.map canon := by
  intro xs
  induction xs with
  | nil => rfl
  | cons v rest ih => simp only [canonList, List.map_cons, ih]

theorem serListL_congr : ∀ xs : List JsonValue,
    (∀ v ∈ xs, serL (canon v) = serL v) → serListL (canonList xs) = serListL xs := by
  intro xs
  induction xs with
  | nil => intro _; rfl
  | cons v rest ih =>
    intro hall
    cases rest with
    | nil =>
      simp only [canonList, serListL]
      exact hall v (by simp)
    | cons w rest2 =>
      simp only [canonList, serListL]
      rw [hall v (by simp)]
      have := ih (fun x hx => hall x (by simp [hx]))
      simp only [canonList] at this
      rw [this]

theorem serL_canon : ∀ v, serL (canon v) = serL v := by
  apply jsonInduct
  · rfl
  · intro b; rfl
  · intro n; rfl
  · intro s; rfl
  · intro xs hall
    show serL (.arr (canonList xs)) = serL (.arr xs)
    simp only [serL]
    rw [serListL_congr xs hall]
  · intro fs hall
    show serL (.obj (sortByKey (canonFields fs))) = serL (.obj fs)
    simp only [serL]
    rw [serFieldsL_eq, canonFields_eq, sortByKey_map canon fs]
    have hpt : (sortByKey fs).map (fun q => (q.1, serL (canon q.2))) =
        (sortByKey fs).map (fun q => (q.1, serL q.2)) := by
      apply List.map_congr_left
      intro q hq
      have hqfs : q ∈ fs := (List.perm_insertionSort keyLe fs).mem_iff.mp hq
      rw [hall q.1 q.2 (by rw [Prod.mk.eta]; exact hqfs)]
    have h1 : List.map (fun q => (q.1, serL q.2))
        (List.map (fun q => (q.1, canon q.2)) (sortByKey fs)) =
        List.map (fun q => (q.1, serL q.2)) (sortByKey fs) := by
      rw [List.map_map]
      exact Eq.trans (by rfl) hpt
    rw [h1, ← sortByKey_map serL fs, sortByKey_idem, serFieldsL_eq]

-- ─── C8: first-character classification ──────────────────────────────────────

theorem classOf_digit (c : Char) (h : isDigitCh c) : classOf c = 2 := by
  obtain ⟨h1, h2⟩ := h
  unfold classOf
  rw [if_neg (by intro hc; rw [hc] at h2; revert h2; decide),
      if_neg (by
        intro hc
        rcases hc with hc | hc <;> (rw [hc] at h2; revert h2; decide)),
      if_pos (Or.inl ⟨h1, h2⟩)]

theorem serL_head_spec : ∀ v, ∃ c t, serL v = c :: t ∧ classOf c = classIdx v := by
  intro v
  cases v with
  | null => exact ⟨'n', "ull".data, by decide, by decide⟩
  | bool b =>
    cases b with
    | true => exact ⟨'t', "rue".data, by decide, by decide⟩
    | false => exact ⟨'f', "alse".data, by decide, by decide⟩
  | num i =>
    cases i with
    | ofNat n =>
      obtain ⟨c, t, hct⟩ : ∃ c t, coreDigits n = c :: t := by
        cases hcd : coreDigits n with
        | nil => exact absurd hcd (coreDigits_ne_nil n)
        | cons c t => exact ⟨c, t, rfl⟩
      refine ⟨c, t, ?_, ?_⟩
      · show natChars n = c :: t
        rw [natChars_eq_core, hct]
      · have hd := coreDigits_digits n c (by rw [hct]; simp)
        rw [classOf_digit c hd]
        rfl
    | negSucc m => exact ⟨'-', natChars (m + 1), rfl, rfl⟩
  | str s => exact ⟨'"', escList s.data ++ ['"'], rfl, rfl⟩
  | arr xs => exact ⟨'[', serListL xs ++ [']'], rfl, rfl⟩
  | obj fs => exact ⟨'{', joinFields (sortByKey (serFieldsL fs)) ++ ['}'], rfl, rfl⟩

theorem serL_class_eq (a b : JsonValue) (r s : List Char) (h : serL a ++ r = serL b ++ s) :
    classIdx a = classIdx b := by
  obtain ⟨c1, t1, h1, hc1⟩ := serL_head_spec a
  obtain ⟨c2, t2, h2, hc2⟩ := serL_head_spec b
  rw [h1, h2, List.cons_append, List.cons_append] at h
  injection h with hc _
  rw [← hc1, ← hc2, hc]

theorem classIdx_le (v : JsonValue) : classIdx v ≤ 5 := by
  cases v <;> simp [classIdx]

-- ─── C8: determinism of list and field serializations ────────────────────────

theorem serListL_cons_decomp (w : JsonValue) (u : List JsonValue) :
    ∃ X, serListL (w :: u) = serL w ++ X ∧ (X = [] ∨ ∃ Y, X = ',' :: Y) := by
  cases u with
  | nil => exact ⟨[], by simp [serListL], Or.inl rfl⟩
  | cons w2 u2 => exact ⟨',' :: serListL (w2 :: u2), rfl, Or.inr ⟨serListL (w2 :: u2), rfl⟩⟩

theorem serL_head_ne (w : JsonValue) (q : Char) (hq : classOf q = 6) (R S : List Char)
    (h : q :: R = serL w ++ S) : False := by
  obtain ⟨c, t, hct, hcl⟩ := serL_head_spec w
  rw [hct, List.cons_append] at h
  injection h with h1 _
  have h5 := classIdx_le w
  rw [← h1] at hcl
  omega

theorem serListL_det : ∀ (xs ys : List JsonValue) (r s : List Char),
    (∀ v ∈ xs, ∀ b r' s', serL v ++ r' = serL b ++ s' → noDigitHead r' → noDigitHead s' →
      canon v = canon b ∧ r' = s') →
    serListL xs ++ ']' :: r = serListL ys ++ ']' :: s →
    canonList xs = canonList ys ∧ r = s := by
  intro xs
  induction xs with
  | nil =>
    intro ys r s _ h
    cases ys with
    | nil =>
      simp only [serListL, List.nil_append, List.cons.injEq, true_and] at h
      exact ⟨rfl, h⟩
    | cons w u =>
      exfalso
      obtain ⟨X, hXe, _⟩ := serListL_cons_decomp w u
      rw [hXe] at h
      simp only [serListL, List.nil_append, List.append_assoc] at h
      exact serL_head_ne w ']' (by decide) r _ h
  | cons v t ih =>
    intro ys r s IH h
    cases ys with
    | nil =>
      exfalso
      obtain ⟨X, hXe, _⟩ := serListL_cons_decomp v t
      rw [hXe] at h
      simp only [serListL, List.nil_append, List.append_assoc] at h
      exact serL_head_ne v ']' (by decide) s _ h.symm
    | cons w u =>
      cases t with
      | nil =>
        cases u with
        | nil =>
          simp only [serListL] at h
          obtain ⟨hc, hrs⟩ := IH v (by simp) w (']' :: r) (']' :: s) h
            (by show ¬ isDigitCh ']'; decide) (by show ¬ isDigitCh ']'; decide)
          simp only [List.cons.injEq, true_and] at hrs
          exact ⟨by simp [canonList, hc], hrs⟩
        | cons w2 u2 =>
          exfalso
          simp only [serListL, List.append_assoc, List.cons_append] at h
          obtain ⟨_, hrs⟩ := IH v (by simp) w (']' :: r) (',' :: (serListL (w2 :: u2) ++ ']' :: s)) h
            (by show ¬ isDigitCh ']'; decide) (by show ¬ isDigitCh ','; decide)
          injection hrs with h1 _
          revert h1
          decide
      | cons v2 t2 =>
        cases u with
        | nil =>
          exfalso
          simp only [serListL, List.append_assoc, List.cons_append] at h
          obtain ⟨_, hrs⟩ := IH v (by simp) w (',' :: (serListL (v2 :: t2) ++ ']' :: r)) (']' :: s) h
            (by show ¬ isDigitCh ','; decide) (by show ¬ isDigitCh ']'; decide)
          injection hrs with h1 _
          revert h1
          decide
        | cons w2 u2 =>
          simp only [serListL, List.append_assoc, List.cons_append] at h
          obtain ⟨hc, hrs⟩ := IH v (by simp) w
            (',' :: (serListL (v2 :: t2) ++ ']' :: r)) (',' :: (serListL (w2 :: u2) ++ ']' :: s)) h
            (by show ¬ isDigitCh ','; decide) (by show ¬ isDigitCh ','; decide)
          simp only [List.cons.injEq, true_and] at hrs
          obtain ⟨hcl, hrs2⟩ := ih (w2 :: u2) r s (fun x hx => IH x (by simp [hx])) hrs
          refine ⟨?_, hrs2⟩
          simp only [canonList] at hcl ⊢
          rw [hc, hcl]

theorem renderField_det (k1 k2 : String) (sv1 sv2 R1 R2 : List Char)
    (h : renderField k1 sv1 ++ R1 = renderField k2 sv2 ++ R2) :
    k1 = k2 ∧ sv1 ++ R1 = sv2 ++ R2 := by
  unfold renderField at h
  simp only [List.cons_append, List.append_assoc] at h
  injection h with _ h2
  obtain ⟨hk, ht⟩ := escDet k1.data k2.data _ _ h2
  injection ht with _ ht2
  exact ⟨String.ext hk, ht2⟩

theorem joinFields_det : ∀ (l1 l2 : List (String × JsonValue)) (r s : List Char),
    (∀ p ∈ l1, ∀ b r' s', serL p.2 ++ r' = serL b ++ s' → noDigitHead r' → noDigitHead s' →
      canon p.2 = canon b ∧ r' = s') →
    joinFields (l1.map (fun q => (q.1, serL q.2))) ++ '}' :: r =
      joinFields (l2.map (fun q => (q.1, serL q.2))) ++ '}' :: s →
    l1.map (fun q => (q.1, canon q.2)) = l2.map (fun q => (q.1, canon q.2)) ∧ r = s := by
  intro l1
  induction l1 with
  | nil =>
    intro l2 r s _ h
    cases l2 with
    | nil =>
      simp only [List.map_nil, joinFields, List.nil_append, List.cons.injEq, true_and] at h
      exact ⟨rfl, h⟩
    | cons q u =>
      exfalso
      simp only [List.map_nil, List.map_cons, List.nil_append] at h
      cases u with
      | nil =>
        simp only [joinFields, renderField, List.cons_append] at h
        injection h with h1 _
        revert h1
        decide
      | cons q2 u2 =>
        simp only [joinFields, renderField, List.cons_append, List.append_assoc] at h
        injection h with h1 _
        revert h1
        decide
  | cons p t ih =>
    intro l2 r s IH h
    cases l2 with
    | nil =>
      exfalso
      simp only [List.map_nil, List.map_cons, List.nil_append] at h
      cases t with
      | nil =>
        simp only [joinFields, renderField, List.cons_append] at h
        injection h with h1 _
        revert h1
        decide
      | cons p2 t2 =>
        simp only [joinFields, renderField, List.cons_append, List.append_assoc] at h
        injection h with h1 _
        revert h1
        decide
    | cons q u =>
      cases t with
      | nil =>
        cases u with
        | nil =>
          simp only [List.map_cons, List.map_nil, joinFields, List.append_assoc] at h
          obtain ⟨hk, hs1⟩ := renderField_det p.1 q.1 (serL p.2) (serL q.2) _ _ h
          obtain ⟨hcan, hrs⟩ := IH p (by simp) q.2 ('}' :: r) ('}' :: s) hs1
            (by show ¬ isDigitCh '}'; decide) (by show ¬ isDigitCh '}'; decide)
          simp only [List.cons.injEq, true_and] at hrs
          refine ⟨?_, hrs⟩
          simp only [List.map_cons, List.map_nil, List.cons.injEq]
          exact ⟨by rw [hk, hcan], by trivial⟩
        | cons q2 u2 =>
          exfalso
          simp only [List.map_cons, List.map_nil, joinFields, List.append_assoc,
            List.cons_append] at h
          obtain ⟨_, hs1⟩ := renderField_det p.1 q.1 (serL p.2) (serL q.2) _ _ h
          obtain ⟨_, hrs⟩ := IH p (by simp) q.2 ('}' :: r)
            (',' :: (joinFields ((q2 :: u2).map (fun x => (x.1, serL x.2))) ++ '}' :: s)) hs1
            (by show ¬ isDigitCh '}'; decide) (by show ¬ isDigitCh ','; decide)
          injection hrs with h1 _
          revert h1
          decide
      | cons p2 t2 =>
        cases u with
        | nil =>
          exfalso
          simp only [List.map_cons, List.map_nil, joinFields, List.append_assoc,
            List.cons_append] at h
          obtain ⟨_, hs1⟩ := renderField_det p.1 q.1 (serL p.2) (serL q.2) _ _ h
          obtain ⟨_, hrs⟩ := IH p (by simp) q.2
            (',' :: (joinFields ((p2 :: t2).map (fun x => (x.1, serL x.2))) ++ '}' :: r))
            ('}' :: s) hs1
            (by show ¬ isDigitCh ','; decide) (by show ¬ isDigitCh '}'; decide)
          injection hrs with h1 _
          revert h1
          decide
        | cons q2 u2 =>
          simp only [List.map_cons, joinFields, List.append_assoc, List.cons_append] at h
          obtain ⟨hk, hs1⟩ := renderField_det p.1 q.1 (serL p.2) (serL q.2) _ _ h
          obtain ⟨hcan, hrs⟩ := IH p (by simp) q.2
            (',' :: (joinFields ((p2 :: t2).map (fun x => (x.1, serL x.2))) ++ '}' :: r))
            (',' :: (joinFields ((q2 :: u2).map (fun x => (x.1, serL x.2))) ++ '}' :: s)) hs1
            (by show ¬ isDigitCh ','; decide) (by show ¬ isDigitCh ','; decide)
          simp only [List.cons.injEq, true_and] at hrs
          obtain ⟨hmap, hrs2⟩ := ih (q2 :: u2) r s (fun x hx => IH x (by simp [hx])) hrs
          refine ⟨?_, hrs2⟩
          simp only [List.map_cons] at hmap ⊢
          rw [hk, hcan, hmap]

-- ─── C8: main determinism of stableStringify ─────────────────────────────────

theorem serDet : ∀ a : JsonValue, ∀ (b : JsonValue) (r s : List Char),
    serL a ++ r = serL b ++ s → noDigitHead r → noDigitHead s →
    canon a = canon b ∧ r = s := by
  apply jsonInduct (fun a => ∀ (b : JsonValue) (r s : List Char),
    serL a ++ r = serL b ++ s → noDigitHead r → noDigitHead s → canon a = canon b ∧ r = s)
  · intro b r s h _ _
    cases b with
    | null => exact ⟨rfl, List.append_cancel_left h⟩
    | bool b2 => exact absurd (serL_class_eq _ _ _ _ h) (by simp [classIdx])
    | num j => exact absurd (serL_class_eq _ _ _ _ h) (by simp [classIdx])
    | str s2 => exact absurd (serL_class_eq _ _ _ _ h) (by simp [classIdx])
    | arr ys => exact absurd (serL_class_eq _ _ _ _ h) (by simp [classIdx])
    | obj gs => exact absurd (serL_class_eq _ _ _ _ h) (by simp [classIdx])
  · intro bb b r s h _ _
    cases b with
    | null => exact absurd (serL_class_eq _ _ _ _ h) (by simp [classIdx])
    | bool b2 =>
      cases bb <;> cases b2
      · exact ⟨rfl, List.append_cancel_left h⟩
      · exfalso
        have h1 : serL (JsonValue.bool false) = 'f' :: "alse".data := by decide
        have h2 : serL (JsonValue.bool true) = 't' :: "rue".data := by decide
        rw [h1, h2, List.cons_append, List.cons_append] at h
        injection h with hc _
        revert hc
        decide
      · exfalso
        have h1 : serL (JsonValue.bool false) = 'f' :: "alse".data := by decide
        have h2 : serL (JsonValue.bool true) = 't' :: "rue".data := by decide
        rw [h1, h2, List.cons_append, List.cons_append] at h
        injection h with hc _
        revert hc
        decide
      · exact ⟨rfl, List.append_cancel_left h⟩
    | num j => exact absurd (serL_class_eq _ _ _ _ h) (by simp [classIdx])
    | str s2 => exact absurd (serL_class_eq _ _ _ _ h) (by simp [classIdx])
    | arr ys => exact absurd (serL_class_eq _ _ _ _ h) (by simp [classIdx])
    | obj gs => exact absurd (serL_class_eq _ _ _ _ h) (by simp [classIdx])
  · intro n b r s h hr hs
    cases b with
    | null => exact absurd (serL_class_eq _ _ _ _ h) (by simp [classIdx])
    | bool b2 => exact absurd (serL_class_eq _ _ _ _ h) (by simp [classIdx])
    | num j =>
      simp only [serL] at h
      obtain ⟨hij, hrs⟩ := intChars_det n j r s hr hs h
      exact ⟨by rw [hij], hrs⟩
    | str s2 => exact absurd (serL_class_eq _ _ _ _ h) (by simp [classIdx])
    | arr ys => exact absurd (serL_class_eq _ _ _ _ h) (by simp [classIdx])
    | obj gs => exact absurd (serL_class_eq _ _ _ _ h) (by simp [classIdx])
  · intro s1 b r s h _ _
    cases b with
    | null => exact absurd (serL_class_eq _ _ _ _ h) (by simp [classIdx])
    | bool b2 => exact absurd (serL_class_eq _ _ _ _ h) (by simp [classIdx])
    | num j => exact absurd (serL_class_eq _ _ _ _ h) (by simp [classIdx])
    | str s2 =>
      simp only [serL, List.cons_append, List.append_assoc, List.singleton_append] at h
      injection h with _ h2
      obtain ⟨hd, hrs⟩ := escDet _ _ _ _ h2
      exact ⟨by rw [String.ext hd], hrs⟩
    | arr ys => exact absurd (serL_class_eq _ _ _ _ h) (by simp [classIdx])
    | obj gs => exact absurd (serL_class_eq _ _ _ _ h) (by simp [classIdx])
  · intro xs hIH b r s h hr hs
    cases b with
    | null => exact absurd (serL_class_eq _ _ _ _ h) (by simp [classIdx])
    | bool b2 => exact absurd (serL_class_eq _ _ _ _ h) (by simp [classIdx])
    | num j => exact absurd (serL_class_eq _ _ _ _ h) (by simp [classIdx])
    | str s2 => exact absurd (serL_class_eq _ _ _ _ h) (by simp [classIdx])
    | arr ys =>
      simp only [serL, List.cons_append, List.append_assoc, List.singleton_append] at h
      injection h with _ h2
      obtain ⟨hcl, hrs⟩ := serListL_det xs ys r s hIH h2
      refine ⟨?_, hrs⟩
      show JsonValue.arr (canonList xs) = JsonValue.arr (canonList ys)
      rw [hcl]
    | obj gs => exact absurd (serL_class_eq _ _ _ _ h) (by simp [classIdx])
  · intro fs hIH b r s h hr hs
    cases b with
    | null => exact absurd (serL_class_eq _ _ _ _ h) (by simp [classIdx])
    | bool b2 => exact absurd (serL_class_eq _ _ _ _ h) (by simp [classIdx])
    | num j => exact absurd (serL_class_eq _ _ _ _ h) (by simp [classIdx])
    | str s2 => exact absurd (serL_class_eq _ _ _ _ h) (by simp [classIdx])
    | arr ys => exact absurd (serL_class_eq _ _ _ _ h) (by simp [classIdx])
    | obj gs =>
      simp only [serL, List.cons_append, List.append_assoc, List.singleton_append] at h
      injection h with _ h2
      rw [serFieldsL_eq fs, serFieldsL_eq gs, sortByKey_map serL fs, sortByKey_map serL gs] at h2
      have hIH' : ∀ p ∈ sortByKey fs, ∀ b r' s',
          serL p.2 ++ r' = serL b ++ s' → noDigitHead r' → noDigitHead s' →
          canon p.2 = canon b ∧ r' = s' := by
        intro p hp
        have hpfs : p ∈ fs := (List.perm_insertionSort keyLe fs).mem_iff.mp hp
        exact hIH p.1 p.2 (by rw [Prod.mk.eta]; exact hpfs)
      obtain ⟨hmap, hrs⟩ := joinFields_det (sortByKey fs) (sortByKey gs) r s hIH' h2
      refine ⟨?_, hrs⟩
      show JsonValue.obj (sortByKey (canonFields fs)) = JsonValue.obj (sortByKey (canonFields gs))
      rw [canonFields_eq, canonFields_eq, sortByKey_map canon fs, sortByKey_map canon gs, hmap]

/-- C8: the CallKey is a deterministic function of the structural value of
the arguments, and injective over it: for a fixed tool name, two argument
values receive the same CallKey exactly when their canonical forms (object
fields recursively sorted by key, array order preserved) coincide — so
mapping construction order cannot change the key, and structurally different
values never collide. -/
theorem C8_theorem (name : String) (a b : JsonValue) :
    toolKey name a = toolKey name b ↔ canon a = canon b := by
  constructor
  · intro h
    have hdata : (toolKey name a).data = (toolKey name b).data := by rw [h]
    unfold toolKey stableStringify at hdata
    simp only [String.data_append, List.append_assoc] at hdata
    have hser : serL a = serL b := by
      have h1 := List.append_cancel_left hdata
      have h2 := List.append_cancel_left h1
      exact h2
    exact (serDet a b [] [] (by rw [List.append_nil, List.append_nil]; exact hser)
      trivial trivial).1
  · intro h
    have hser : serL a = serL b := by
      rw [← serL_canon a, ← serL_canon b, h]
    unfold toolKey stableStringify
    rw [hser]
